import Mathlib

/-!
Shallow embedding of the tic-tac-toe engine (`src/main.cpp`).

Bitboards (`uint16_t` in the source) are modelled as `Nat`; all bit
operations (`&&&`, `|||`, `^^^`, `<<<`) coincide with the C++ semantics on
the 16-bit range actually used.  Scores (`int` in the source) are `Int`.
The recursive `alphabeta` search is embedded with an explicit fuel
argument; fuel `9` always suffices because each recursive call removes one
of the at most nine empty cells (proved below in `alphabetaF_of_le_fuel`).
-/

namespace TicTacToe

abbrev Bitboard := Nat

inductive GameStatus where
  | IN_PROGRESS
  | DRAW
  | CIRCLE_WON
  | CROSS_WON
deriving DecidableEq, Repr

/-- Source struct `Board`: two occupancy bitboards and the side to move. -/
structure Board where
  cross : Bitboard
  circle : Bitboard
  cross_to_move : Bool
deriving DecidableEq, Repr

/-- The eight winning line patterns, exactly as listed in `check_status`. -/
def winning_patterns : List Bitboard :=
  [0b111000000, 0b000111000, 0b000000111,
   0b100100100, 0b010010010, 0b001001001,
   0b100010001, 0b001010100]

/-- Source expression `~(cross | circle) & 0b111111111`. -/
def Board.get_legal_moves (b : Board) : Bitboard :=
  ((b.cross ||| b.circle) ^^^ 511) &&& 511

/-- Source `Board::make_move`: xor the move into the mover's occupancy,
flip the turn. -/
def Board.make_move (b : Board) (move : Bitboard) : Board :=
  if b.cross_to_move then
    { cross := b.cross ^^^ move, circle := b.circle, cross_to_move := !b.cross_to_move }
  else
    { cross := b.cross, circle := b.circle ^^^ move, cross_to_move := !b.cross_to_move }

/-- Source `Board::unmake_move`: the inverse discipline (negated test, then
flip). -/
def Board.unmake_move (b : Board) (move : Bitboard) : Board :=
  if !b.cross_to_move then
    { cross := b.cross ^^^ move, circle := b.circle, cross_to_move := !b.cross_to_move }
  else
    { cross := b.cross, circle := b.circle ^^^ move, cross_to_move := !b.cross_to_move }

/-- The first loop of `check_status`: per pattern, cross first, early return. -/
def winLoop (c o : Bitboard) : List Bitboard → Option GameStatus
  | [] => none
  | p :: rest =>
    if c &&& p == p then some .CROSS_WON
    else if o &&& p == p then some .CIRCLE_WON
    else winLoop c o rest

/-- The second loop of `check_status`: `((cross | ~circle) & p) == p` or the
symmetric test sets `winnable` (the complement is the 16-bit one of the
source's `uint16_t`). -/
def winnableLoop (c o : Bitboard) : List Bitboard → Bool
  | [] => false
  | p :: rest =>
    (((c ||| (o ^^^ 65535)) &&& p) == p) ||
    (((o ||| (c ^^^ 65535)) &&& p) == p) ||
    winnableLoop c o rest

/-- Source `Board::check_status`. -/
def Board.check_status (b : Board) : GameStatus :=
  match winLoop b.cross b.circle winning_patterns with
  | some s => s
  | none =>
    if winnableLoop b.cross b.circle winning_patterns then .IN_PROGRESS
    else .DRAW

/-- The set bits of a bitboard, lowest first: the exact visiting order of the
source's `bitloop` (`_blsi_u64` extracts the lowest set bit, `_blsr_u64`
clears it). -/
def bitsOf (x : Bitboard) : List Nat :=
  (List.range 9).filter (fun i => x.testBit i)

/-- Number of empty cells of a board. -/
def emptyCount (b : Board) : Nat :=
  (bitsOf b.get_legal_moves).length

/-- The move loop of `alphabeta`, abstracted over the child evaluation:
source lines `if (score >= beta) return beta; if (score > alpha) alpha =
score;`. -/
def abGo (child : Nat → Int → Int) (beta : Int) : List Nat → Int → Int
  | [], alpha => alpha
  | i :: rest, alpha =>
    let score := child i alpha
    if beta ≤ score then beta
    else if alpha < score then abGo child beta rest score
    else abGo child beta rest alpha

/-- Source `alphabeta`, with fuel bounding the recursion depth (fuel `9`
always suffices, see `alphabetaF_of_le_fuel`). -/
def alphabetaF : Nat → Board → Int → Int → Nat → Int
  | fuel, board, alpha, beta, depth =>
    match board.check_status with
    | .DRAW => 0
    | .CIRCLE_WON => if board.cross_to_move then -1 else 10 - (depth : Int)
    | .CROSS_WON => if board.cross_to_move then 10 - (depth : Int) else -1
    | .IN_PROGRESS =>
      match fuel with
      | 0 => alpha
      | f + 1 =>
        abGo (fun i a => -alphabetaF f (board.make_move (1 <<< i)) (-beta) (-a) (depth + 1))
          beta (bitsOf board.get_legal_moves) alpha

/-- Source `int alphabeta(Board&, int, int, int)`. -/
def alphabeta (board : Board) (alpha beta : Int) (depth : Nat) : Int :=
  alphabetaF 9 board alpha beta depth

/-- Proof helper: the same search as `alphabetaF`, except that the legal
moves are visited in the order prescribed by `order` instead of lowest bit
first.  `alphabetaF` is the instance `order = List.range 9`
(`alphabetaF_eq_abOrdF`), and a better order makes the concrete evaluation
of the empty board cheap. -/
def abOrdF (order : List Nat) : Nat → Board → Int → Int → Nat → Int
  | fuel, board, alpha, beta, depth =>
    match board.check_status with
    | .DRAW => 0
    | .CIRCLE_WON => if board.cross_to_move then -1 else 10 - (depth : Int)
    | .CROSS_WON => if board.cross_to_move then 10 - (depth : Int) else -1
    | .IN_PROGRESS =>
      match fuel with
      | 0 => alpha
      | f + 1 =>
        abGo (fun i a => -abOrdF order f (board.make_move (1 <<< i)) (-beta) (-a) (depth + 1))
          beta (order.filter (fun i => board.get_legal_moves.testBit i)) alpha

/-- Game-theoretic value of a position from the side to move, with the
terminal convention of the source's search at positions reached by at
least one move: a decided position scores `-1` (the mover lost), a drawn
one `0`.  Fuel-indexed; see `vm`. -/
def vmF : Nat → Board → Int
  | fuel, b =>
    match b.check_status with
    | .DRAW => 0
    | .CIRCLE_WON => -1
    | .CROSS_WON => -1
    | .IN_PROGRESS =>
      match fuel with
      | 0 => 0
      | f + 1 =>
        ((bitsOf b.get_legal_moves).map
          (fun i => -vmF f (b.make_move (1 <<< i)))).foldl max (-100)

/-- Game-theoretic value (fuel `9` always suffices). -/
def vm (b : Board) : Int := vmF 9 b

/-- Source `std::popcount` on the 16-bit bitboard. -/
def popcount (x : Bitboard) : Nat :=
  ((List.range 16).filter (fun i => x.testBit i)).length

namespace BotPlayer

/-- The scoring loop of `BotPlayer::choose_move`: track the best score,
collect all moves achieving it. -/
def searchLoop (b : Board) : List Nat → Int → Bitboard → Int × Bitboard
  | [], best_score, best_move => (best_score, best_move)
  | i :: rest, best_score, best_move =>
    let score := -alphabeta (b.make_move (1 <<< i)) (-100) 100 0
    if best_score < score then searchLoop b rest score (1 <<< i)
    else if score == best_score then searchLoop b rest best_score (best_move ||| (1 <<< i))
    else searchLoop b rest best_score best_move

/-- Best score and tied-best move set, from `best_score = -100`,
`best_move = 0`. -/
def best (b : Board) : Int × Bitboard :=
  searchLoop b (bitsOf b.get_legal_moves) (-100) 0

def best_score (b : Board) : Int := (best b).1

def best_move (b : Board) : Bitboard := (best b).2

/-- The selection scan at the end of `choose_move`: walk the nine cells,
counting set bits of `best_move`, returning the mask whose running count
first equals `des_bit`. -/
def pickLoop (best_move des_bit : Nat) : Nat → Bitboard → Nat → Bitboard
  | 0, _, _ => 0
  | n + 1, mask, bit_set =>
    let new_bit_set := if mask &&& best_move != 0 then bit_set + 1 else bit_set
    if des_bit == new_bit_set then mask
    else pickLoop best_move des_bit n (mask <<< 1) new_bit_set

/-- Source `BotPlayer::choose_move`.  The draw of
`std::uniform_int_distribution<int> distr(1, move_count - 1)` is passed in
as `des_bit`; the source only consults it when two or more moves tie. -/
def choose_move (b : Board) (des_bit : Nat) : Bitboard :=
  let bm := best_move b
  if popcount bm ≤ 1 then bm
  else pickLoop bm des_bit 9 1 0

end BotPlayer

/-- Exchanging the two win outcomes of a status (used to state the claimed
symmetry of `check_status`). -/
def swapStatus : GameStatus → GameStatus
  | .CROSS_WON => .CIRCLE_WON
  | .CIRCLE_WON => .CROSS_WON
  | s => s

/-- Winner-to-move never happens at positions reached by a move from an
in-progress position: the side to move at a decided position is the loser. -/
def Clean (b : Board) : Prop :=
  (b.check_status = .CROSS_WON → b.cross_to_move = false) ∧
  (b.check_status = .CIRCLE_WON → b.cross_to_move = true)

/-- Boards reachable from the empty board by applying legal single-cell
moves. -/
inductive Reachable : Board → Prop
  | empty : Reachable ⟨0, 0, true⟩
  | step {b : Board} {i : Nat} : Reachable b → i < 9 →
      b.get_legal_moves.testBit i = true → Reachable (b.make_move (1 <<< i))

/-- Positions visited by the search started at `b0` (a superset: pruned
branches are included). -/
inductive SubPos : Board → Board → Prop
  | refl (b : Board) : SubPos b b
  | step {b0 b : Board} {i : Nat} : SubPos b0 b → b.check_status = .IN_PROGRESS →
      i < 9 → b.get_legal_moves.testBit i = true → SubPos b0 (b.make_move (1 <<< i))

/-- Boards reachable from the empty board when the bot moves first and only
ever plays moves from its tied-best set, while the opponent replies with
arbitrary legal moves. -/
inductive BotReach : Board → Prop
  | empty : BotReach ⟨0, 0, true⟩
  | bot {b : Board} {i : Nat} : BotReach b → b.cross_to_move = true →
      b.check_status = .IN_PROGRESS → i < 9 →
      (BotPlayer.best_move b).testBit i = true → BotReach (b.make_move (1 <<< i))
  | opp {b : Board} {i : Nat} : BotReach b → b.cross_to_move = false →
      b.check_status = .IN_PROGRESS → i < 9 →
      b.get_legal_moves.testBit i = true → BotReach (b.make_move (1 <<< i))

/-- The winning patterns of the specification, given as the lists of cell
indices of the corresponding lines (3 rows, 3 columns, 2 diagonals), in
the order of the source table. -/
def spec_patterns : List (List Nat) :=
  [[6, 7, 8], [3, 4, 5], [0, 1, 2],
   [2, 5, 8], [1, 4, 7], [0, 3, 6],
   [0, 4, 8], [2, 4, 6]]

/-- Specification wording: all cells of the line are in the occupancy set. -/
def ownsAll (occ : Bitboard) (cells : List Nat) : Bool :=
  cells.all (fun i => occ.testBit i)

/-- Specification wording: the line could still be completed by the side
owning `own` (all its cells are either `own`-occupied or empty). -/
def completableBy (own other : Bitboard) (cells : List Nat) : Bool :=
  cells.all (fun i => own.testBit i || (!own.testBit i && !other.testBit i))

/-- Specification wording of the win scan: for each pattern, if all 3 cells
are cross's return CROSS_WON, else if all 3 are circle's return CIRCLE_WON. -/
def spec_winLoop (c o : Bitboard) : List (List Nat) → Option GameStatus
  | [] => none
  | cells :: rest =>
    if ownsAll c cells then some .CROSS_WON
    else if ownsAll o cells then some .CIRCLE_WON
    else spec_winLoop c o rest

/-- Terminal-status evaluator as worded by the specification (section 4.2),
to be compared with the source translation `Board.check_status`. -/
def Board.check_status_spec (b : Board) : GameStatus :=
  match spec_winLoop b.cross b.circle spec_patterns with
  | some s => s
  | none =>
    if spec_patterns.any
        (fun cells => completableBy b.cross b.circle cells ||
                      completableBy b.circle b.cross cells)
    then .IN_PROGRESS else .DRAW

end TicTacToe

namespace TicTacToe

/-! ### Bit-level facts -/

theorem tb_one_shiftLeft (i j : Nat) : (1 <<< i).testBit j = decide (i = j) := by
  rw [Nat.shiftLeft_eq, one_mul]
  rcases eq_or_ne i j with h | h
  · simp [h, Nat.testBit_two_pow_self]
  · simp [h, Nat.testBit_two_pow_of_ne h]

theorem tb_511 (j : Nat) : (511 : Nat).testBit j = decide (j < 9) := by
  rcases Nat.lt_or_ge j 9 with h | h
  · interval_cases j <;> decide
  · have : (511 : Nat) < 2 ^ j :=
      lt_of_lt_of_le (by norm_num) (Nat.pow_le_pow_right (by norm_num) h)
    simp [Nat.testBit_eq_false_of_lt this, Nat.not_lt.mpr h]

theorem tb_65535 (j : Nat) : (65535 : Nat).testBit j = decide (j < 16) := by
  rcases Nat.lt_or_ge j 16 with h | h
  · interval_cases j <;> decide
  · have : (65535 : Nat) < 2 ^ j :=
      lt_of_lt_of_le (by norm_num) (Nat.pow_le_pow_right (by norm_num) h)
    simp [Nat.testBit_eq_false_of_lt this, Nat.not_lt.mpr h]

theorem legal_testBit (b : Board) (j : Nat) :
    (b.get_legal_moves).testBit j =
      (decide (j < 9) && !(b.cross.testBit j || b.circle.testBit j)) := by
  simp only [Board.get_legal_moves, Nat.testBit_land, Nat.testBit_xor, Nat.testBit_lor,
    tb_511]
  rcases Nat.lt_or_ge j 9 with h | h
  · cases hc : b.cross.testBit j <;> cases ho : b.circle.testBit j <;> simp [h]
  · simp [Nat.not_lt.mpr h]

theorem legal_lt (b : Board) : b.get_legal_moves < 512 := by
  have : (512 : Nat) = 2 ^ 9 := by norm_num
  rw [this]
  refine Nat.lt_pow_two_of_testBit _ (fun i hi => ?_)
  rw [legal_testBit]
  simp [Nat.not_lt.mpr hi]

theorem land_eq_self_iff (c p : Nat) :
    c &&& p = p ↔ ∀ i, p.testBit i = true → c.testBit i = true := by
  constructor
  · intro h i hp
    have := congrArg (fun x => x.testBit i) h
    simp only [Nat.testBit_land, hp, Bool.and_true] at this
    exact this
  · intro h
    refine Nat.eq_of_testBit_eq (fun i => ?_)
    rw [Nat.testBit_land]
    cases hp : p.testBit i
    · simp
    · simp [h i hp]

/-! ### Fold-max facts -/

theorem foldl_max_init_le (d : Int) (l : List Int) : d ≤ l.foldl max d := by
  induction l generalizing d with
  | nil => simp
  | cons x xs ih => exact le_trans (le_max_left d x) (ih (max d x))

theorem le_foldl_max_of_mem {x : Int} {l : List Int} (h : x ∈ l) (d : Int) :
    x ≤ l.foldl max d := by
  induction l generalizing d with
  | nil => simp at h
  | cons y ys ih =>
    rcases List.mem_cons.mp h with rfl | h
    · exact le_trans (le_max_right d x) (foldl_max_init_le _ _)
    · exact ih h _

theorem foldl_max_mem_or_init (d : Int) (l : List Int) :
    l.foldl max d = d ∨ l.foldl max d ∈ l := by
  induction l generalizing d with
  | nil => simp
  | cons x xs ih =>
    rcases ih (max d x) with h | h
    · rcases max_choice d x with hm | hm
      · left
        rw [List.foldl_cons, h, hm]
      · right
        rw [List.foldl_cons, h, hm]
        exact List.mem_cons_self x xs
    · exact Or.inr (List.mem_cons_of_mem _ h)

theorem foldl_max_le {d K : Int} {l : List Int} (hd : d ≤ K)
    (h : ∀ x ∈ l, x ≤ K) : l.foldl max d ≤ K := by
  rcases foldl_max_mem_or_init d l with hc | hc
  · rw [hc]
    exact hd
  · exact h _ hc

theorem foldl_max_congr_mem {l₁ l₂ : List Int} (d : Int)
    (h : ∀ x, x ∈ l₁ ↔ x ∈ l₂) : l₁.foldl max d = l₂.foldl max d := by
  refine le_antisymm ?_ ?_ <;>
    refine foldl_max_le (foldl_max_init_le _ _) (fun x hx => ?_)
  · exact le_foldl_max_of_mem ((h x).mp hx) d
  · exact le_foldl_max_of_mem ((h x).mpr hx) d

theorem foldl_max_init_change {l : List Int} (d e : Int) (hne : l ≠ [])
    (he : ∀ x ∈ l, e ≤ x) : l.foldl max d = max d (l.foldl max e) := by
  obtain ⟨x₀, hx₀⟩ := List.exists_mem_of_ne_nil l hne
  refine le_antisymm ?_ ?_
  · rcases foldl_max_mem_or_init d l with hc | hc
    · rw [hc]
      exact le_max_left _ _
    · exact le_trans (le_foldl_max_of_mem hc e) (le_max_right _ _)
  · refine max_le (foldl_max_init_le _ _) ?_
    rcases foldl_max_mem_or_init e l with hc | hc
    · rw [hc]
      exact le_trans (he _ hx₀) (le_foldl_max_of_mem hx₀ d)
    · exact le_foldl_max_of_mem hc d

end TicTacToe

namespace TicTacToe

/-! ### Facts about `bitsOf`, legal moves and `make_move` -/

theorem mem_bitsOf {i : Nat} {x : Bitboard} :
    i ∈ bitsOf x ↔ i < 9 ∧ x.testBit i = true := by
  simp [bitsOf, List.mem_filter, List.mem_range]

theorem bitsOf_nodup (x : Bitboard) : (bitsOf x).Nodup :=
  (List.nodup_range 9).filter _

theorem bitsOf_eq_nil_iff {x : Bitboard} :
    bitsOf x = [] ↔ ∀ i, i < 9 → x.testBit i = false := by
  simp only [bitsOf, List.filter_eq_nil_iff, List.mem_range]
  constructor
  · intro h i hi
    simpa using h i hi
  · intro h i hi
    simp [h i hi]

theorem emptyCount_le_nine (b : Board) : emptyCount b ≤ 9 := by
  have := List.length_filter_le (fun i => b.get_legal_moves.testBit i) (List.range 9)
  simpa [emptyCount, bitsOf] using this

theorem make_move_cross_to_move (b : Board) (m : Bitboard) :
    (b.make_move m).cross_to_move = !b.cross_to_move := by
  unfold Board.make_move
  split <;> rfl

theorem unmake_move_cross_to_move (b : Board) (m : Bitboard) :
    (b.unmake_move m).cross_to_move = !b.cross_to_move := by
  unfold Board.unmake_move
  split <;> rfl

theorem make_move_cross (b : Board) (m : Bitboard) :
    (b.make_move m).cross = if b.cross_to_move then b.cross ^^^ m else b.cross := by
  unfold Board.make_move
  split <;> rfl

theorem make_move_circle (b : Board) (m : Bitboard) :
    (b.make_move m).circle = if b.cross_to_move then b.circle else b.circle ^^^ m := by
  unfold Board.make_move
  split <;> rfl

theorem legal_make_move_testBit (b : Board) {i : Nat} (j : Nat)
    (hleg : b.get_legal_moves.testBit i = true) :
    (b.make_move (1 <<< i)).get_legal_moves.testBit j =
      (b.get_legal_moves.testBit j && !(decide (j = i))) := by
  have hi := legal_testBit b i
  rw [hleg] at hi
  replace hi := hi.symm
  rw [Bool.and_eq_true, Bool.not_eq_true', Bool.or_eq_false_iff] at hi
  obtain ⟨-, hic, hio⟩ := hi
  have hx : ∀ x : Nat, (x ^^^ 1 <<< i).testBit j = (x.testBit j ^^ decide (i = j)) := by
    intro x
    rw [Nat.testBit_xor, tb_one_shiftLeft]
  cases ht : b.cross_to_move
  · have hm : b.make_move (1 <<< i) = ⟨b.cross, b.circle ^^^ 1 <<< i, !b.cross_to_move⟩ := by
      simp [Board.make_move, ht]
    rw [hm, legal_testBit, legal_testBit]
    simp only [hx]
    rcases eq_or_ne j i with rfl | hji
    · simp [hic, hio]
    · simp [hji, Ne.symm hji]
  · have hm : b.make_move (1 <<< i) = ⟨b.cross ^^^ 1 <<< i, b.circle, !b.cross_to_move⟩ := by
      simp [Board.make_move, ht]
    rw [hm, legal_testBit, legal_testBit]
    simp only [hx]
    rcases eq_or_ne j i with rfl | hji
    · simp [hic, hio]
    · simp [hji, Ne.symm hji]

theorem bitsOf_legal_make_move (b : Board) {i : Nat}
    (hleg : b.get_legal_moves.testBit i = true) :
    bitsOf (b.make_move (1 <<< i)).get_legal_moves =
      (bitsOf b.get_legal_moves).filter (fun j => j != i) := by
  unfold bitsOf
  rw [List.filter_filter]
  refine List.filter_congr (fun j _ => ?_)
  rw [legal_make_move_testBit b j hleg]
  rcases eq_or_ne j i with rfl | hji
  · simp
  · simp [hji, Bool.and_comm]

theorem emptyCount_make_move (b : Board) {i : Nat} (hi : i < 9)
    (hleg : b.get_legal_moves.testBit i = true) :
    emptyCount (b.make_move (1 <<< i)) = emptyCount b - 1 := by
  unfold emptyCount
  rw [bitsOf_legal_make_move b hleg]
  have hmem : i ∈ bitsOf b.get_legal_moves := mem_bitsOf.mpr ⟨hi, hleg⟩
  have hn : (bitsOf b.get_legal_moves).Nodup := bitsOf_nodup _
  rw [← hn.erase_eq_filter i]
  exact List.length_erase_of_mem hmem

theorem emptyCount_pos (b : Board) {i : Nat} (hi : i < 9)
    (hleg : b.get_legal_moves.testBit i = true) : 1 ≤ emptyCount b := by
  have hmem : i ∈ bitsOf b.get_legal_moves := mem_bitsOf.mpr ⟨hi, hleg⟩
  have := List.length_pos_of_mem hmem
  simpa [emptyCount] using this

end TicTacToe

namespace TicTacToe

/-! ### Facts about `check_status` -/

theorem winLoop_eq_none_iff {c o : Bitboard} {ps : List Bitboard} :
    winLoop c o ps = none ↔ ∀ p ∈ ps, ¬(c &&& p = p) ∧ ¬(o &&& p = p) := by
  induction ps with
  | nil => simp [winLoop]
  | cons p rest ih =>
    by_cases hc : c &&& p = p
    · simp [winLoop, hc]
    · by_cases ho : o &&& p = p
      · simp [winLoop, hc, ho]
      · simp [winLoop, hc, ho, ih, List.forall_mem_cons]

theorem winLoop_cases {c o : Bitboard} {ps : List Bitboard} :
    winLoop c o ps = none ∨ winLoop c o ps = some .CROSS_WON ∨
      winLoop c o ps = some .CIRCLE_WON := by
  induction ps with
  | nil => simp [winLoop]
  | cons p rest ih =>
    by_cases hc : c &&& p = p
    · simp [winLoop, hc]
    · by_cases ho : o &&& p = p <;> simp [winLoop, hc, ho, ih]

theorem winLoop_some_cross {c o : Bitboard} {ps : List Bitboard}
    (h : winLoop c o ps = some .CROSS_WON) : ∃ p ∈ ps, c &&& p = p := by
  induction ps with
  | nil => simp [winLoop] at h
  | cons p rest ih =>
    by_cases hc : c &&& p = p
    · exact ⟨p, List.mem_cons_self _ _, hc⟩
    · by_cases ho : o &&& p = p
      · simp [winLoop, hc, ho] at h
      · simp only [winLoop, beq_iff_eq, if_neg hc, if_neg ho] at h
        obtain ⟨q, hq, hcq⟩ := ih h
        exact ⟨q, List.mem_cons_of_mem _ hq, hcq⟩

theorem winLoop_some_circle {c o : Bitboard} {ps : List Bitboard}
    (h : winLoop c o ps = some .CIRCLE_WON) : ∃ p ∈ ps, o &&& p = p := by
  induction ps with
  | nil => simp [winLoop] at h
  | cons p rest ih =>
    by_cases hc : c &&& p = p
    · simp [winLoop, hc] at h
    · by_cases ho : o &&& p = p
      · exact ⟨p, List.mem_cons_self _ _, ho⟩
      · simp only [winLoop, beq_iff_eq, if_neg hc, if_neg ho] at h
        obtain ⟨q, hq, hoq⟩ := ih h
        exact ⟨q, List.mem_cons_of_mem _ hq, hoq⟩

theorem winLoop_ne_none_of_win {c o : Bitboard} {ps : List Bitboard} {p : Bitboard}
    (hp : p ∈ ps) (h : c &&& p = p ∨ o &&& p = p) : winLoop c o ps ≠ none := by
  intro hn
  rw [winLoop_eq_none_iff] at hn
  rcases h with h | h
  · exact (hn p hp).1 h
  · exact (hn p hp).2 h

theorem winnableLoop_iff {c o : Bitboard} {ps : List Bitboard} :
    winnableLoop c o ps = true ↔
      ∃ p ∈ ps, (c ||| (o ^^^ 65535)) &&& p = p ∨ (o ||| (c ^^^ 65535)) &&& p = p := by
  induction ps with
  | nil => simp [winnableLoop]
  | cons p rest ih =>
    unfold winnableLoop
    simp only [Bool.or_eq_true, beq_iff_eq, ih]
    constructor
    · rintro ((h | h) | ⟨q, hq, hd⟩)
      · exact ⟨p, List.mem_cons_self _ _, Or.inl h⟩
      · exact ⟨p, List.mem_cons_self _ _, Or.inr h⟩
      · exact ⟨q, List.mem_cons_of_mem _ hq, hd⟩
    · rintro ⟨q, hq, hd⟩
      rcases List.mem_cons.mp hq with rfl | hq
      · rcases hd with h | h
        · exact Or.inl (Or.inl h)
        · exact Or.inl (Or.inr h)
      · exact Or.inr ⟨q, hq, hd⟩

theorem status_in_progress_iff {b : Board} :
    b.check_status = .IN_PROGRESS ↔
      winLoop b.cross b.circle winning_patterns = none ∧
      winnableLoop b.cross b.circle winning_patterns = true := by
  unfold Board.check_status
  rcases @winLoop_cases b.cross b.circle winning_patterns
    with hw | hw | hw <;> rw [hw]
  · by_cases hn : winnableLoop b.cross b.circle winning_patterns = true <;> simp [hn]
  · simp
  · simp

end TicTacToe

namespace TicTacToe

theorem patterns_lt : ∀ p ∈ winning_patterns, p < 512 := by decide

theorem patterns_ne_zero : ∀ p ∈ winning_patterns, p ≠ 0 := by decide

theorem status_cross_won_iff {b : Board} :
    b.check_status = .CROSS_WON ↔
      winLoop b.cross b.circle winning_patterns = some .CROSS_WON := by
  unfold Board.check_status
  rcases @winLoop_cases b.cross b.circle winning_patterns
    with hw | hw | hw <;> rw [hw]
  · by_cases hn : winnableLoop b.cross b.circle winning_patterns = true <;> simp [hn]
  · simp
  · simp

theorem status_circle_won_iff {b : Board} :
    b.check_status = .CIRCLE_WON ↔
      winLoop b.cross b.circle winning_patterns = some .CIRCLE_WON := by
  unfold Board.check_status
  rcases @winLoop_cases b.cross b.circle winning_patterns
    with hw | hw | hw <;> rw [hw]
  · by_cases hn : winnableLoop b.cross b.circle winning_patterns = true <;> simp [hn]
  · simp
  · simp

/-- On a board with no legal move, the status is never `IN_PROGRESS`: every
pattern that is still completable is in fact fully owned, so the win scan
would have fired. -/
theorem not_in_progress_of_no_legal {b : Board}
    (h : bitsOf b.get_legal_moves = []) : b.check_status ≠ .IN_PROGRESS := by
  intro hip
  obtain ⟨hwin, hwinnable⟩ := status_in_progress_iff.mp hip
  have hfull : ∀ i, i < 9 → (b.cross.testBit i || b.circle.testBit i) = true := by
    intro i hi
    have hleg := (bitsOf_eq_nil_iff.mp h) i hi
    rw [legal_testBit] at hleg
    rcases hb : (b.cross.testBit i || b.circle.testBit i) with - | -
    · rw [hb] at hleg
      simp [hi] at hleg
    · rfl
  obtain ⟨p, hp, hd⟩ := winnableLoop_iff.mp hwinnable
  have hplt := patterns_lt p hp
  have hcell : ∀ i, p.testBit i = true → i < 9 := by
    intro i hpi
    by_contra hge
    have hpow : p < 2 ^ i :=
      lt_of_lt_of_le (show p < 2 ^ 9 by simpa using hplt)
        (Nat.pow_le_pow_right (by norm_num) (Nat.not_lt.mp hge))
    rw [Nat.testBit_eq_false_of_lt hpow] at hpi
    exact absurd hpi (by simp)
  refine winLoop_ne_none_of_win hp ?_ hwin
  rcases hd with hd | hd
  · left
    rw [land_eq_self_iff]
    intro i hpi
    have hi9 := hcell i hpi
    have h16 : i < 16 := Nat.lt_of_lt_of_le hi9 (by norm_num)
    have hdi := (land_eq_self_iff _ _).mp hd i hpi
    rw [Nat.testBit_lor, Nat.testBit_xor, tb_65535] at hdi
    have hfi := hfull i hi9
    rcases hcb : b.cross.testBit i with - | -
    · exfalso
      rw [hcb] at hdi hfi
      simp only [Bool.false_or] at hdi hfi
      simp [hfi, h16] at hdi
    · rfl
  · right
    rw [land_eq_self_iff]
    intro i hpi
    have hi9 := hcell i hpi
    have h16 : i < 16 := Nat.lt_of_lt_of_le hi9 (by norm_num)
    have hdi := (land_eq_self_iff _ _).mp hd i hpi
    rw [Nat.testBit_lor, Nat.testBit_xor, tb_65535] at hdi
    have hfi := hfull i hi9
    rcases hcb : b.circle.testBit i with - | -
    · exfalso
      rw [hcb] at hdi
      rw [Bool.or_comm] at hfi
      rw [hcb] at hfi
      simp only [Bool.false_or] at hdi hfi
      simp [hfi, h16] at hdi
    · rfl

theorem bitsOf_ne_nil_of_in_progress {b : Board}
    (h : b.check_status = .IN_PROGRESS) : bitsOf b.get_legal_moves ≠ [] := by
  intro hnil
  exact not_in_progress_of_no_legal hnil h

/-- A move from an in-progress position cannot give the opponent of the
mover a win: their occupancy is unchanged and owned no pattern before, so
the side to move afterwards can only be the loser. -/
theorem clean_make_move {b : Board} (h : b.check_status = .IN_PROGRESS)
    (m : Bitboard) : Clean (b.make_move m) := by
  obtain ⟨hwin, -⟩ := status_in_progress_iff.mp h
  rw [winLoop_eq_none_iff] at hwin
  cases ht : b.cross_to_move
  · have hm : b.make_move m = ⟨b.cross, b.circle ^^^ m, true⟩ := by
      simp [Board.make_move, ht]
    constructor
    · intro hs
      rw [hm] at hs
      obtain ⟨p, hp, hcp⟩ := winLoop_some_cross (status_cross_won_iff.mp hs)
      exact absurd hcp (hwin p hp).1
    · rintro -
      rw [hm]
  · have hm : b.make_move m = ⟨b.cross ^^^ m, b.circle, false⟩ := by
      simp [Board.make_move, ht]
    constructor
    · rintro -
      rw [hm]
    · intro hs
      rw [hm] at hs
      obtain ⟨p, hp, hop⟩ := winLoop_some_circle (status_circle_won_iff.mp hs)
      exact absurd hop (hwin p hp).2

end TicTacToe

namespace TicTacToe

/-! ### Unfolding equations -/

theorem alphabetaF_draw {f : Nat} {b : Board} {α β : Int} {d : Nat}
    (h : b.check_status = .DRAW) : alphabetaF f b α β d = 0 := by
  cases f
  · conv_lhs => rw [alphabetaF]
    simp only [h]
  · conv_lhs => rw [alphabetaF]
    simp only [h]

theorem alphabetaF_circle_won {f : Nat} {b : Board} {α β : Int} {d : Nat}
    (h : b.check_status = .CIRCLE_WON) :
    alphabetaF f b α β d = if b.cross_to_move then -1 else 10 - (d : Int) := by
  cases f
  · conv_lhs => rw [alphabetaF]
    simp only [h]
  · conv_lhs => rw [alphabetaF]
    simp only [h]

theorem alphabetaF_cross_won {f : Nat} {b : Board} {α β : Int} {d : Nat}
    (h : b.check_status = .CROSS_WON) :
    alphabetaF f b α β d = if b.cross_to_move then 10 - (d : Int) else -1 := by
  cases f
  · conv_lhs => rw [alphabetaF]
    simp only [h]
  · conv_lhs => rw [alphabetaF]
    simp only [h]

theorem alphabetaF_zero_in_progress {b : Board} {α β : Int} {d : Nat}
    (h : b.check_status = .IN_PROGRESS) : alphabetaF 0 b α β d = α := by
  conv_lhs => rw [alphabetaF]
  simp only [h]

theorem alphabetaF_in_progress {f : Nat} {b : Board} {α β : Int} {d : Nat}
    (h : b.check_status = .IN_PROGRESS) :
    alphabetaF (f + 1) b α β d =
      abGo (fun i a => -alphabetaF f (b.make_move (1 <<< i)) (-β) (-a) (d + 1))
        β (bitsOf b.get_legal_moves) α := by
  conv_lhs => rw [alphabetaF]
  simp only [h]

theorem abOrdF_draw {order : List Nat} {f : Nat} {b : Board} {α β : Int} {d : Nat}
    (h : b.check_status = .DRAW) : abOrdF order f b α β d = 0 := by
  cases f
  · conv_lhs => rw [abOrdF]
    simp only [h]
  · conv_lhs => rw [abOrdF]
    simp only [h]

theorem abOrdF_circle_won {order : List Nat} {f : Nat} {b : Board} {α β : Int} {d : Nat}
    (h : b.check_status = .CIRCLE_WON) :
    abOrdF order f b α β d = if b.cross_to_move then -1 else 10 - (d : Int) := by
  cases f
  · conv_lhs => rw [abOrdF]
    simp only [h]
  · conv_lhs => rw [abOrdF]
    simp only [h]

theorem abOrdF_cross_won {order : List Nat} {f : Nat} {b : Board} {α β : Int} {d : Nat}
    (h : b.check_status = .CROSS_WON) :
    abOrdF order f b α β d = if b.cross_to_move then 10 - (d : Int) else -1 := by
  cases f
  · conv_lhs => rw [abOrdF]
    simp only [h]
  · conv_lhs => rw [abOrdF]
    simp only [h]

theorem abOrdF_zero_in_progress {order : List Nat} {b : Board} {α β : Int} {d : Nat}
    (h : b.check_status = .IN_PROGRESS) : abOrdF order 0 b α β d = α := by
  conv_lhs => rw [abOrdF]
  simp only [h]

theorem abOrdF_in_progress {order : List Nat} {f : Nat} {b : Board} {α β : Int} {d : Nat}
    (h : b.check_status = .IN_PROGRESS) :
    abOrdF order (f + 1) b α β d =
      abGo (fun i a => -abOrdF order f (b.make_move (1 <<< i)) (-β) (-a) (d + 1))
        β (order.filter (fun i => b.get_legal_moves.testBit i)) α := by
  conv_lhs => rw [abOrdF]
  simp only [h]

theorem vmF_draw {f : Nat} {b : Board} (h : b.check_status = .DRAW) :
    vmF f b = 0 := by
  cases f
  · conv_lhs => rw [vmF]
    simp only [h]
  · conv_lhs => rw [vmF]
    simp only [h]

theorem vmF_circle_won {f : Nat} {b : Board} (h : b.check_status = .CIRCLE_WON) :
    vmF f b = -1 := by
  cases f
  · conv_lhs => rw [vmF]
    simp only [h]
  · conv_lhs => rw [vmF]
    simp only [h]

theorem vmF_cross_won {f : Nat} {b : Board} (h : b.check_status = .CROSS_WON) :
    vmF f b = -1 := by
  cases f
  · conv_lhs => rw [vmF]
    simp only [h]
  · conv_lhs => rw [vmF]
    simp only [h]

theorem vmF_zero_in_progress {b : Board} (h : b.check_status = .IN_PROGRESS) :
    vmF 0 b = 0 := by
  conv_lhs => rw [vmF]
  simp only [h]

theorem vmF_in_progress {f : Nat} {b : Board} (h : b.check_status = .IN_PROGRESS) :
    vmF (f + 1) b = ((bitsOf b.get_legal_moves).map
      (fun i => -vmF f (b.make_move (1 <<< i)))).foldl max (-100) := by
  conv_lhs => rw [vmF]
  simp only [h]

/-! ### Fuel stabilization -/

theorem abGo_congr {child₁ child₂ : Nat → Int → Int} {beta : Int} {l : List Nat}
    (h : ∀ i ∈ l, ∀ a, child₁ i a = child₂ i a) :
    ∀ alpha, abGo child₁ beta l alpha = abGo child₂ beta l alpha := by
  induction l with
  | nil => intro alpha; rfl
  | cons i rest ih =>
    intro alpha
    unfold abGo
    rw [h i (List.mem_cons_self _ _) alpha]
    by_cases hb : beta ≤ child₂ i alpha
    · simp [hb]
    · by_cases ha : alpha < child₂ i alpha <;>
        simp [hb, ha, ih (fun j hj a => h j (List.mem_cons_of_mem _ hj) a)]

theorem alphabetaF_succ {f : Nat} :
    ∀ {b : Board} {α β : Int} {d : Nat}, emptyCount b ≤ f →
      alphabetaF (f + 1) b α β d = alphabetaF f b α β d := by
  induction f with
  | zero =>
    intro b α β d hf
    rcases hst : b.check_status with - | - | - | -
    · have : bitsOf b.get_legal_moves = [] :=
        List.length_eq_zero.mp (Nat.le_zero.mp hf)
      exact absurd hst (not_in_progress_of_no_legal this)
    · rw [alphabetaF_draw hst, alphabetaF_draw hst]
    · rw [alphabetaF_circle_won hst, alphabetaF_circle_won hst]
    · rw [alphabetaF_cross_won hst, alphabetaF_cross_won hst]
  | succ f ih =>
    intro b α β d hf
    rcases hst : b.check_status with - | - | - | -
    · rw [alphabetaF_in_progress hst, alphabetaF_in_progress hst]
      refine abGo_congr (fun i hi a => ?_) α
      obtain ⟨hi9, hleg⟩ := mem_bitsOf.mp hi
      have hcount : emptyCount (b.make_move (1 <<< i)) ≤ f := by
        rw [emptyCount_make_move b hi9 hleg]
        omega
      rw [ih hcount]
    · rw [alphabetaF_draw hst, alphabetaF_draw hst]
    · rw [alphabetaF_circle_won hst, alphabetaF_circle_won hst]
    · rw [alphabetaF_cross_won hst, alphabetaF_cross_won hst]

theorem alphabetaF_of_le_fuel {f g : Nat} {b : Board} {α β : Int} {d : Nat}
    (hf : emptyCount b ≤ f) (hg : emptyCount b ≤ g) :
    alphabetaF f b α β d = alphabetaF g b α β d := by
  suffices haux : ∀ n b α β d, emptyCount b ≤ n →
      alphabetaF n b α β d = alphabetaF (emptyCount b) b α β d by
    rw [haux f b α β d hf, haux g b α β d hg]
  intro n
  induction n with
  | zero =>
    intro b α β d hn
    rw [Nat.le_zero.mp hn]
  | succ n ih =>
    intro b α β d hn
    rcases Nat.lt_or_ge (emptyCount b) (n + 1) with hlt | hge
    · rw [alphabetaF_succ (Nat.lt_succ_iff.mp hlt), ih b α β d (Nat.lt_succ_iff.mp hlt)]
    · rw [Nat.le_antisymm hn hge]

theorem alphabetaF_eq_abOrdF {fuel : Nat} :
    ∀ {b : Board} {α β : Int} {d : Nat},
      alphabetaF fuel b α β d = abOrdF (List.range 9) fuel b α β d := by
  induction fuel with
  | zero =>
    intro b α β d
    rcases hst : b.check_status with - | - | - | -
    · rw [alphabetaF_zero_in_progress hst, abOrdF_zero_in_progress hst]
    · rw [alphabetaF_draw hst, abOrdF_draw hst]
    · rw [alphabetaF_circle_won hst, abOrdF_circle_won hst]
    · rw [alphabetaF_cross_won hst, abOrdF_cross_won hst]
  | succ f ih =>
    intro b α β d
    rcases hst : b.check_status with - | - | - | -
    · rw [alphabetaF_in_progress hst, abOrdF_in_progress hst]
      exact abGo_congr (fun i _ a => by rw [ih]) α
    · rw [alphabetaF_draw hst, abOrdF_draw hst]
    · rw [alphabetaF_circle_won hst, abOrdF_circle_won hst]
    · rw [alphabetaF_cross_won hst, abOrdF_cross_won hst]

/-! ### Facts about the value function `vm` -/

theorem vmF_succ {f : Nat} :
    ∀ {b : Board}, emptyCount b ≤ f → vmF (f + 1) b = vmF f b := by
  induction f with
  | zero =>
    intro b hf
    rcases hst : b.check_status with - | - | - | -
    · have : bitsOf b.get_legal_moves = [] :=
        List.length_eq_zero.mp (Nat.le_zero.mp hf)
      exact absurd hst (not_in_progress_of_no_legal this)
    · rw [vmF_draw hst, vmF_draw hst]
    · rw [vmF_circle_won hst, vmF_circle_won hst]
    · rw [vmF_cross_won hst, vmF_cross_won hst]
  | succ f ih =>
    intro b hf
    rcases hst : b.check_status with - | - | - | -
    · rw [vmF_in_progress hst, vmF_in_progress hst]
      refine congrArg (fun l => List.foldl max (-100) l) ?_
      refine List.map_congr_left (fun i hi => ?_)
      obtain ⟨hi9, hleg⟩ := mem_bitsOf.mp hi
      have hcount : emptyCount (b.make_move (1 <<< i)) ≤ f := by
        rw [emptyCount_make_move b hi9 hleg]
        omega
      rw [ih hcount]
    · rw [vmF_draw hst, vmF_draw hst]
    · rw [vmF_circle_won hst, vmF_circle_won hst]
    · rw [vmF_cross_won hst, vmF_cross_won hst]

theorem vmF_of_le_fuel {f g : Nat} {b : Board} (hf : emptyCount b ≤ f)
    (hg : emptyCount b ≤ g) : vmF f b = vmF g b := by
  suffices haux : ∀ n b, emptyCount b ≤ n → vmF n b = vmF (emptyCount b) b by
    rw [haux f b hf, haux g b hg]
  intro n
  induction n with
  | zero =>
    intro b hn
    rw [Nat.le_zero.mp hn]
  | succ n ih =>
    intro b hn
    rcases Nat.lt_or_ge (emptyCount b) (n + 1) with hlt | hge
    · rw [vmF_succ (Nat.lt_succ_iff.mp hlt), ih b (Nat.lt_succ_iff.mp hlt)]
    · rw [Nat.le_antisymm hn hge]

theorem vm_recur {b : Board} (h : b.check_status = .IN_PROGRESS) :
    vm b = ((bitsOf b.get_legal_moves).map
      (fun i => -vm (b.make_move (1 <<< i)))).foldl max (-100) := by
  show vmF (8 + 1) b = _
  rw [vmF_in_progress h]
  refine congrArg (fun l => List.foldl max (-100) l) ?_
  refine List.map_congr_left (fun i hi => ?_)
  obtain ⟨hi9, hleg⟩ := mem_bitsOf.mp hi
  have hcount : emptyCount (b.make_move (1 <<< i)) ≤ 8 := by
    have h9 := emptyCount_le_nine b
    rw [emptyCount_make_move b hi9 hleg]
    omega
  rw [vm]
  exact congrArg Neg.neg (vmF_of_le_fuel hcount (le_trans hcount (by norm_num)))

theorem vm_range : ∀ (b : Board), -1 ≤ vm b ∧ vm b ≤ 1 := by
  suffices haux : ∀ f b, -1 ≤ vmF f b ∧ vmF f b ≤ 1 from fun b => haux 9 b
  intro f
  induction f with
  | zero =>
    intro b
    rcases hst : b.check_status with - | - | - | -
    · rw [vmF_zero_in_progress hst]
      norm_num
    · rw [vmF_draw hst]
      norm_num
    · rw [vmF_circle_won hst]
      norm_num
    · rw [vmF_cross_won hst]
      norm_num
  | succ f ih =>
    intro b
    rcases hst : b.check_status with - | - | - | -
    · rw [vmF_in_progress hst]
      have hne : bitsOf b.get_legal_moves ≠ [] := bitsOf_ne_nil_of_in_progress hst
      obtain ⟨i, hi⟩ := List.exists_mem_of_ne_nil _ hne
      constructor
      · have hmem : -vmF f (b.make_move (1 <<< i)) ∈
            (bitsOf b.get_legal_moves).map (fun j => -vmF f (b.make_move (1 <<< j))) :=
          List.mem_map_of_mem _ hi
        refine le_trans ?_ (le_foldl_max_of_mem hmem (-100))
        have := (ih (b.make_move (1 <<< i))).2
        omega
      · refine foldl_max_le (by norm_num) (fun x hx => ?_)
        obtain ⟨j, -, rfl⟩ := List.mem_map.mp hx
        have := (ih (b.make_move (1 <<< j))).1
        omega
    · rw [vmF_draw hst]
      norm_num
    · rw [vmF_circle_won hst]
      norm_num
    · rw [vmF_cross_won hst]
      norm_num

end TicTacToe

namespace TicTacToe

/-! ### The alpha-beta bracket theorem -/

/-- The move loop returns the clamp of the best true score into `[α, β]`,
provided each child evaluation behaves like a clamped search. -/
theorem abGo_clamp {child : Nat → Int → Int} {s : Nat → Int} {β α₀ : Int}
    {l : List Nat}
    (hch : ∀ i ∈ l, ∀ a, α₀ ≤ a → a < β →
      (s i ≤ a → child i a ≤ a) ∧
      (a < s i → s i < β → child i a = s i) ∧
      (β ≤ s i → β ≤ child i a)) :
    ∀ α, α₀ ≤ α → α < β →
      abGo child β l α = min ((l.map s).foldl max α) β := by
  induction l with
  | nil =>
    intro α hα hαβ
    simp [abGo, min_eq_left hαβ.le]
  | cons i rest ih =>
    intro α hα hαβ
    obtain ⟨h1, h2, h3⟩ := hch i (List.mem_cons_self _ _) α hα hαβ
    have hch' := fun j hj => hch j (List.mem_cons_of_mem _ hj)
    simp only [abGo, List.map_cons, List.foldl_cons]
    rcases le_or_lt β (s i) with hβs | hsβ
    · rw [if_pos (h3 hβs)]
      have hfold : β ≤ (rest.map s).foldl max (max α (s i)) :=
        le_trans (le_trans hβs (le_max_right α (s i))) (foldl_max_init_le _ _)
      rw [min_eq_right hfold]
    · rcases lt_or_le α (s i) with hαs | hsα
      · have hc := h2 hαs hsβ
        rw [if_neg (by rw [hc]; exact not_le.mpr hsβ),
          if_pos (by rw [hc]; exact hαs)]
        rw [hc, ih hch' (s i) (le_trans hα hαs.le) hsβ, max_eq_right hαs.le]
      · have hc := h1 hsα
        rw [if_neg (not_le.mpr (lt_of_le_of_lt hc hαβ)), if_neg (not_lt.mpr hc)]
        rw [ih hch' α hα hαβ, max_eq_left hsα]

/-- For a clean board and any covering move order, the ordered alpha-beta
search returns the value clamped into the window (and the raw terminal
value at decided boards). -/
theorem abOrd_bracket {order : List Nat} (hord : ∀ i, i < 9 → i ∈ order) :
    ∀ (fuel : Nat) (b : Board) (α β : Int) (d : Nat),
      emptyCount b ≤ fuel → Clean b → α < β →
      abOrdF order fuel b α β d =
        if b.check_status = .IN_PROGRESS then min (max α (vm b)) β else vm b := by
  intro fuel
  induction fuel with
  | zero =>
    intro b α β d hfuel hclean hαβ
    rcases hst : b.check_status with - | - | - | -
    · exact absurd hst (not_in_progress_of_no_legal
        (List.length_eq_zero.mp (Nat.le_zero.mp hfuel)))
    · rw [if_neg (by simp [hst]), abOrdF_draw hst]
      show (0 : Int) = vmF 9 b
      rw [vmF_draw hst]
    · rw [if_neg (by simp [hst]), abOrdF_circle_won hst, hclean.2 hst]
      show (-1 : Int) = vmF 9 b
      rw [vmF_circle_won hst]
    · rw [if_neg (by simp [hst]), abOrdF_cross_won hst, hclean.1 hst]
      show (-1 : Int) = vmF 9 b
      rw [vmF_cross_won hst]
  | succ f ih =>
    intro b α β d hfuel hclean hαβ
    rcases hst : b.check_status with - | - | - | -
    · rw [abOrdF_in_progress hst, if_pos rfl]
      have hmem9 : ∀ i ∈ order.filter (fun i => b.get_legal_moves.testBit i),
          i < 9 ∧ b.get_legal_moves.testBit i = true := by
        intro i hi
        obtain ⟨-, hleg⟩ := List.mem_filter.mp hi
        refine ⟨?_, hleg⟩
        by_contra hge
        rw [legal_testBit] at hleg
        simp [hge] at hleg
      have hch : ∀ i ∈ order.filter (fun i => b.get_legal_moves.testBit i), ∀ a,
          α ≤ a → a < β →
          (-vm (b.make_move (1 <<< i)) ≤ a →
            -abOrdF order f (b.make_move (1 <<< i)) (-β) (-a) (d + 1) ≤ a) ∧
          (a < -vm (b.make_move (1 <<< i)) →
            -vm (b.make_move (1 <<< i)) < β →
            -abOrdF order f (b.make_move (1 <<< i)) (-β) (-a) (d + 1) =
              -vm (b.make_move (1 <<< i))) ∧
          (β ≤ -vm (b.make_move (1 <<< i)) →
            β ≤ -abOrdF order f (b.make_move (1 <<< i)) (-β) (-a) (d + 1)) := by
        intro i hi a ha haβ
        obtain ⟨hi9, hleg⟩ := hmem9 i hi
        have hclean2 : Clean (b.make_move (1 <<< i)) := clean_make_move hst _
        have hfuel2 : emptyCount (b.make_move (1 <<< i)) ≤ f := by
          rw [emptyCount_make_move b hi9 hleg]
          omega
        have hrec := ih (b.make_move (1 <<< i)) (-β) (-a) (d + 1) hfuel2 hclean2
          (by omega)
        by_cases hst2 : (b.make_move (1 <<< i)).check_status = .IN_PROGRESS
        · rw [if_pos hst2] at hrec
          rw [hrec]
          have hr := vm_range (b.make_move (1 <<< i))
          refine ⟨fun hle => ?_, fun hgt hlt => ?_, fun hge => ?_⟩ <;> omega
        · rw [if_neg hst2] at hrec
          rw [hrec]
          refine ⟨fun hle => ?_, fun hgt hlt => ?_, fun hge => ?_⟩ <;> omega
      have hloop := abGo_clamp hch α le_rfl hαβ
      rw [hloop]
      have hmm : ∀ j, j ∈ order.filter (fun i => b.get_legal_moves.testBit i) ↔
          j ∈ bitsOf b.get_legal_moves := by
        intro j
        rw [List.mem_filter, mem_bitsOf]
        constructor
        · intro ⟨hjo, hjleg⟩
          have hjleg2 : b.get_legal_moves.testBit j = true := by simpa using hjleg
          refine ⟨?_, hjleg2⟩
          by_contra hge
          rw [legal_testBit] at hjleg2
          simp [hge] at hjleg2
        · intro ⟨hj9, hjleg⟩
          exact ⟨hord j hj9, by simpa using hjleg⟩
      have hne_can : bitsOf b.get_legal_moves ≠ [] := bitsOf_ne_nil_of_in_progress hst
      have hne_ord : order.filter (fun i => b.get_legal_moves.testBit i) ≠ [] := by
        obtain ⟨j, hj⟩ := List.exists_mem_of_ne_nil _ hne_can
        intro hnil
        rw [← hmm] at hj
        rw [hnil] at hj
        simp at hj
      have hfold : ((order.filter (fun i => b.get_legal_moves.testBit i)).map
          (fun i => -vm (b.make_move (1 <<< i)))).foldl max α = max α (vm b) := by
        have hnemap : ((order.filter (fun i => b.get_legal_moves.testBit i)).map
            (fun i => -vm (b.make_move (1 <<< i)))) ≠ [] := by
          simpa using hne_ord
        rw [foldl_max_init_change α (-100) hnemap (fun x hx => by
          obtain ⟨j, -, rfl⟩ := List.mem_map.mp hx
          have := (vm_range (b.make_move (1 <<< j))).2
          omega)]
        have hmemmap : ∀ x : Int,
            x ∈ ((order.filter (fun i => b.get_legal_moves.testBit i)).map
              (fun i => -vm (b.make_move (1 <<< i)))) ↔
            x ∈ ((bitsOf b.get_legal_moves).map
              (fun i => -vm (b.make_move (1 <<< i)))) := by
          intro x
          rw [List.mem_map, List.mem_map]
          constructor
          · rintro ⟨j, hj, rfl⟩
            exact ⟨j, (hmm j).mp hj, rfl⟩
          · rintro ⟨j, hj, rfl⟩
            exact ⟨j, (hmm j).mpr hj, rfl⟩
        rw [foldl_max_congr_mem (-100) hmemmap]
        rw [← vm_recur hst]
      rw [hfold]
    · rw [if_neg (by simp [hst]), abOrdF_draw hst]
      show (0 : Int) = vmF 9 b
      rw [vmF_draw hst]
    · rw [if_neg (by simp [hst]), abOrdF_circle_won hst, hclean.2 hst]
      show (-1 : Int) = vmF 9 b
      rw [vmF_circle_won hst]
    · rw [if_neg (by simp [hst]), abOrdF_cross_won hst, hclean.1 hst]
      show (-1 : Int) = vmF 9 b
      rw [vmF_cross_won hst]

/-- The bracket theorem for the source's own move order. -/
theorem alphabeta_bracket {b : Board} {α β : Int} {d : Nat}
    (hclean : Clean b) (hαβ : α < β) :
    alphabeta b α β d =
      if b.check_status = .IN_PROGRESS then min (max α (vm b)) β else vm b := by
  rw [alphabeta, alphabetaF_eq_abOrdF]
  exact abOrd_bracket (fun i hi => List.mem_range.mpr hi) 9 b α β d
    (emptyCount_le_nine b) hclean hαβ

end TicTacToe

namespace TicTacToe

/-! ### Upper range of the search -/

theorem abGo_le {child : Nat → Int → Int} {β K : Int} (hβ : β ≤ K) :
    ∀ (l : List Nat) (a : Int), a ≤ K → abGo child β l a ≤ K := by
  intro l
  induction l with
  | nil => intro a ha; exact ha
  | cons i rest ih =>
    intro a ha
    simp only [abGo]
    by_cases hb : β ≤ child i a
    · rw [if_pos hb]
      exact hβ
    · rw [if_neg hb]
      by_cases h2 : a < child i a
      · rw [if_pos h2]
        exact ih _ (le_trans (le_of_lt (not_le.mp hb)) hβ)
      · rw [if_neg h2]
        exact ih _ ha

theorem alphabetaF_le {f : Nat} {b : Board} {α β : Int} {d : Nat} (hαβ : α < β) :
    alphabetaF f b α β d ≤ max β 10 := by
  have h10 : (10 : Int) ≤ max β 10 := le_max_right β 10
  have hβm : β ≤ max β 10 := le_max_left β 10
  rcases hst : b.check_status with - | - | - | -
  · cases f with
    | zero =>
      rw [alphabetaF_zero_in_progress hst]
      omega
    | succ f =>
      rw [alphabetaF_in_progress hst]
      exact abGo_le hβm _ α (by omega)
  · rw [alphabetaF_draw hst]
    omega
  · rw [alphabetaF_circle_won hst]
    have : (d : Int) ≥ 0 := Int.natCast_nonneg d
    by_cases ht : b.cross_to_move <;> simp [ht]
  · rw [alphabetaF_cross_won hst]
    have : (d : Int) ≥ 0 := Int.natCast_nonneg d
    by_cases ht : b.cross_to_move <;> simp [ht]

/-! ### Characterization of the bot's scoring loop -/

theorem searchLoop_spec (b : Board) :
    ∀ (l : List Nat) (bs : Int) (bm : Bitboard),
      (BotPlayer.searchLoop b l bs bm).1 =
        (l.map (fun i => -alphabeta (b.make_move (1 <<< i)) (-100) 100 0)).foldl max bs ∧
      (∀ j : Nat, (BotPlayer.searchLoop b l bs bm).2.testBit j = true ↔
        (((BotPlayer.searchLoop b l bs bm).1 = bs ∧ bm.testBit j = true) ∨
         (j ∈ l ∧ -alphabeta (b.make_move (1 <<< j)) (-100) 100 0 =
            (BotPlayer.searchLoop b l bs bm).1))) := by
  intro l
  induction l with
  | nil =>
    intro bs bm
    refine ⟨rfl, fun j => ?_⟩
    simp [BotPlayer.searchLoop]
  | cons i rest ih =>
    intro bs bm
    rcases lt_trichotomy bs (-alphabeta (b.make_move (1 <<< i)) (-100) 100 0)
      with hlt | heq | hgt
    · have hstep : BotPlayer.searchLoop b (i :: rest) bs bm =
          BotPlayer.searchLoop b rest
            (-alphabeta (b.make_move (1 <<< i)) (-100) 100 0) (1 <<< i) := by
        simp only [BotPlayer.searchLoop]
        rw [if_pos hlt]
      obtain ⟨ih1, ih2⟩ := ih (-alphabeta (b.make_move (1 <<< i)) (-100) 100 0) (1 <<< i)
      have hge : -alphabeta (b.make_move (1 <<< i)) (-100) 100 0 ≤
          (BotPlayer.searchLoop b rest
            (-alphabeta (b.make_move (1 <<< i)) (-100) 100 0) (1 <<< i)).1 := by
        rw [ih1]
        exact foldl_max_init_le _ _
      rw [hstep]
      constructor
      · rw [ih1, List.map_cons, List.foldl_cons, max_eq_right hlt.le]
      · intro j
        rw [ih2 j]
        constructor
        · rintro (⟨hres, hbit⟩ | ⟨hj, hsc⟩)
          · rw [tb_one_shiftLeft] at hbit
            have hij : i = j := by simpa using hbit
            subst hij
            exact Or.inr ⟨List.mem_cons_self _ _, hres.symm⟩
          · exact Or.inr ⟨List.mem_cons_of_mem _ hj, hsc⟩
        · rintro (⟨hres, -⟩ | ⟨hj, hsc⟩)
          · exfalso
            rw [hres] at hge
            omega
          · rcases List.mem_cons.mp hj with rfl | hj2
            · left
              refine ⟨hsc.symm, ?_⟩
              rw [tb_one_shiftLeft]
              simp
            · exact Or.inr ⟨hj2, hsc⟩
    · have hstep : BotPlayer.searchLoop b (i :: rest) bs bm =
          BotPlayer.searchLoop b rest bs (bm ||| (1 <<< i)) := by
        simp only [BotPlayer.searchLoop]
        rw [if_neg (by omega), if_pos (beq_iff_eq.mpr heq.symm)]
      obtain ⟨ih1, ih2⟩ := ih bs (bm ||| (1 <<< i))
      rw [hstep]
      constructor
      · rw [ih1, List.map_cons, List.foldl_cons, max_eq_left heq.ge]
      · intro j
        rw [ih2 j]
        have horb : (bm ||| (1 <<< i)).testBit j =
            (bm.testBit j || decide (i = j)) := by
          rw [Nat.testBit_lor, tb_one_shiftLeft]
        constructor
        · rintro (⟨hres, hbit⟩ | ⟨hj, hsc⟩)
          · rw [horb] at hbit
            rcases Bool.or_eq_true_iff.mp hbit with hb | hb
            · exact Or.inl ⟨hres, hb⟩
            · have hij : i = j := by simpa using hb
              subst hij
              refine Or.inr ⟨List.mem_cons_self _ _, ?_⟩
              rw [hres, ← heq]
          · exact Or.inr ⟨List.mem_cons_of_mem _ hj, hsc⟩
        · rintro (⟨hres, hbit⟩ | ⟨hj, hsc⟩)
          · refine Or.inl ⟨hres, ?_⟩
            rw [horb, hbit]
            simp
          · rcases List.mem_cons.mp hj with rfl | hj2
            · refine Or.inl ⟨by omega, ?_⟩
              rw [horb]
              simp
            · exact Or.inr ⟨hj2, hsc⟩
    · have hstep : BotPlayer.searchLoop b (i :: rest) bs bm =
          BotPlayer.searchLoop b rest bs bm := by
        simp only [BotPlayer.searchLoop]
        rw [if_neg (by omega), if_neg (by rw [beq_iff_eq]; omega)]
      obtain ⟨ih1, ih2⟩ := ih bs bm
      have hge : bs ≤ (BotPlayer.searchLoop b rest bs bm).1 := by
        rw [ih1]
        exact foldl_max_init_le _ _
      rw [hstep]
      constructor
      · rw [ih1, List.map_cons, List.foldl_cons, max_eq_left hgt.le]
      · intro j
        rw [ih2 j]
        constructor
        · rintro (⟨hres, hbit⟩ | ⟨hj, hsc⟩)
          · exact Or.inl ⟨hres, hbit⟩
          · exact Or.inr ⟨List.mem_cons_of_mem _ hj, hsc⟩
        · rintro (⟨hres, hbit⟩ | ⟨hj, hsc⟩)
          · exact Or.inl ⟨hres, hbit⟩
          · rcases List.mem_cons.mp hj with rfl | hj2
            · exfalso
              rw [← hsc] at hge
              omega
            · exact Or.inr ⟨hj2, hsc⟩

end TicTacToe

namespace TicTacToe

/-! ### Characterization of `best_score` and `best_move` -/

theorem sc_ge_neg100 (b : Board) (j : Nat) :
    -100 ≤ -alphabeta (b.make_move (1 <<< j)) (-100) 100 0 := by
  have := alphabetaF_le (f := 9) (b := b.make_move (1 <<< j)) (α := -100) (β := 100)
    (d := 0) (by norm_num)
  rw [show max (100 : Int) 10 = 100 by norm_num] at this
  rw [alphabeta] at *
  omega

theorem best_score_eq (b : Board) :
    BotPlayer.best_score b = ((bitsOf b.get_legal_moves).map
      (fun i => -alphabeta (b.make_move (1 <<< i)) (-100) 100 0)).foldl max (-100) :=
  (searchLoop_spec b (bitsOf b.get_legal_moves) (-100) 0).1

theorem best_move_testBit (b : Board) (j : Nat) :
    (BotPlayer.best_move b).testBit j = true ↔
      (j ∈ bitsOf b.get_legal_moves ∧
        -alphabeta (b.make_move (1 <<< j)) (-100) 100 0 = BotPlayer.best_score b) := by
  have h := (searchLoop_spec b (bitsOf b.get_legal_moves) (-100) 0).2 j
  rw [show BotPlayer.best_move b = (BotPlayer.searchLoop b (bitsOf b.get_legal_moves)
    (-100) 0).2 from rfl]
  rw [h]
  simp [Nat.zero_testBit, BotPlayer.best_score, BotPlayer.best]

theorem sc_le_best_score (b : Board) {j : Nat} (hj : j ∈ bitsOf b.get_legal_moves) :
    -alphabeta (b.make_move (1 <<< j)) (-100) 100 0 ≤ BotPlayer.best_score b := by
  rw [best_score_eq]
  exact le_foldl_max_of_mem (List.mem_map_of_mem _ hj) _

theorem best_score_attained (b : Board) (hne : bitsOf b.get_legal_moves ≠ []) :
    ∃ j ∈ bitsOf b.get_legal_moves,
      -alphabeta (b.make_move (1 <<< j)) (-100) 100 0 = BotPlayer.best_score b := by
  rw [best_score_eq]
  rcases foldl_max_mem_or_init (-100) ((bitsOf b.get_legal_moves).map
      (fun i => -alphabeta (b.make_move (1 <<< i)) (-100) 100 0)) with hc | hc
  · obtain ⟨j0, hj0⟩ := List.exists_mem_of_ne_nil _ hne
    refine ⟨j0, hj0, ?_⟩
    have hmem : -alphabeta (b.make_move (1 <<< j0)) (-100) 100 0 ∈
        (bitsOf b.get_legal_moves).map
          (fun i => -alphabeta (b.make_move (1 <<< i)) (-100) 100 0) :=
      List.mem_map_of_mem _ hj0
    have hle := le_foldl_max_of_mem hmem (-100 : Int)
    have hge := sc_ge_neg100 b j0
    rw [hc] at hle ⊢
    omega
  · obtain ⟨j, hj, hjeq⟩ := List.mem_map.mp hc
    exact ⟨j, hj, hjeq⟩

theorem best_move_ne_zero (b : Board) (hne : bitsOf b.get_legal_moves ≠ []) :
    BotPlayer.best_move b ≠ 0 := by
  obtain ⟨j, hj, hsc⟩ := best_score_attained b hne
  intro h0
  have := (best_move_testBit b j).mpr ⟨hj, hsc⟩
  rw [h0] at this
  simp [Nat.zero_testBit] at this

theorem best_move_bits_lt (b : Board) {j : Nat}
    (hj : (BotPlayer.best_move b).testBit j = true) : j < 9 :=
  (mem_bitsOf.mp ((best_move_testBit b j).mp hj).1).1

/-- On a clean in-progress board, the per-move search score is exactly the
negated value of the child position. -/
theorem sc_eq_vm {b : Board} (hip : b.check_status = .IN_PROGRESS)
    {j : Nat} (hj : j ∈ bitsOf b.get_legal_moves) :
    -alphabeta (b.make_move (1 <<< j)) (-100) 100 0 = -vm (b.make_move (1 <<< j)) := by
  obtain ⟨hj9, hjleg⟩ := mem_bitsOf.mp hj
  have hclean2 : Clean (b.make_move (1 <<< j)) := clean_make_move hip _
  have hb := alphabeta_bracket (b := b.make_move (1 <<< j)) (α := -100) (β := 100)
    (d := 0) hclean2 (by norm_num)
  have hr := vm_range (b.make_move (1 <<< j))
  by_cases hst2 : (b.make_move (1 <<< j)).check_status = .IN_PROGRESS
  · rw [if_pos hst2] at hb
    rw [hb]
    omega
  · rw [if_neg hst2] at hb
    rw [hb]

/-- On a clean in-progress board, the bot's best score is the value of the
position. -/
theorem best_score_eq_vm {b : Board}
    (hip : b.check_status = .IN_PROGRESS) : BotPlayer.best_score b = vm b := by
  rw [best_score_eq, vm_recur hip]
  refine congrArg (fun l => List.foldl max (-100) l) ?_
  exact List.map_congr_left (fun j hj => sc_eq_vm hip hj)

/-- On a clean in-progress board, the tied-best set is the set of legal moves
whose child value is `-vm b`. -/
theorem best_move_testBit_vm {b : Board}
    (hip : b.check_status = .IN_PROGRESS) (j : Nat) :
    (BotPlayer.best_move b).testBit j = true ↔
      (j ∈ bitsOf b.get_legal_moves ∧ vm (b.make_move (1 <<< j)) = -vm b) := by
  rw [best_move_testBit]
  constructor
  · rintro ⟨hj, hsc⟩
    rw [sc_eq_vm hip hj, best_score_eq_vm hip] at hsc
    exact ⟨hj, by omega⟩
  · rintro ⟨hj, hv⟩
    refine ⟨hj, ?_⟩
    rw [sc_eq_vm hip hj, best_score_eq_vm hip]
    omega

end TicTacToe

namespace TicTacToe

/-! ### Characterization of the selection scan -/

theorem cnt_succ_true {k bm : Nat} (h : bm.testBit k = true) :
    ((List.range (k + 1)).filter (fun j => bm.testBit j)).length =
      ((List.range k).filter (fun j => bm.testBit j)).length + 1 := by
  rw [List.range_succ, List.filter_append]
  simp [h]

theorem cnt_succ_false {k bm : Nat} (h : bm.testBit k = false) :
    ((List.range (k + 1)).filter (fun j => bm.testBit j)).length =
      ((List.range k).filter (fun j => bm.testBit j)).length := by
  rw [List.range_succ, List.filter_append]
  simp [h]

theorem land_single_ne_zero {k bm : Nat} :
    (1 <<< k) &&& bm ≠ 0 ↔ bm.testBit k = true := by
  constructor
  · intro h
    by_contra hbit
    refine h (Nat.eq_of_testBit_eq (fun j => ?_))
    rw [Nat.testBit_land, tb_one_shiftLeft, Nat.zero_testBit]
    rcases eq_or_ne k j with rfl | hkj
    · simp only [Bool.not_eq_true] at hbit
      simp [hbit]
    · simp [hkj]
  · intro h h0
    have := congrArg (fun x => x.testBit k) h0
    simp only [Nat.testBit_land, tb_one_shiftLeft, Nat.zero_testBit] at this
    simp [h] at this

theorem shiftLeft_one_succ (k : Nat) : (1 <<< k) <<< 1 = 1 <<< (k + 1) := by
  simp [Nat.shiftLeft_eq]
  ring

theorem pickLoop_mem {bm des : Nat} :
    ∀ (n k : Nat), n + k = 9 →
      ((List.range k).filter (fun j => bm.testBit j)).length < des →
      des ≤ ((List.range 9).filter (fun j => bm.testBit j)).length →
      ∃ j, j < 9 ∧ bm.testBit j = true ∧
        BotPlayer.pickLoop bm des n (1 <<< k)
          (((List.range k).filter (fun j => bm.testBit j)).length) = 1 <<< j := by
  intro n
  induction n with
  | zero =>
    intro k hk hlt hle
    rw [show k = 9 by omega] at hlt
    omega
  | succ n ih =>
    intro k hk hlt hle
    by_cases hbit : bm.testBit k = true
    · have hland : (1 <<< k) &&& bm ≠ 0 := land_single_ne_zero.mpr hbit
      have hstep : BotPlayer.pickLoop bm des (n + 1) (1 <<< k)
          (((List.range k).filter (fun j => bm.testBit j)).length) =
          if (des == ((List.range k).filter (fun j => bm.testBit j)).length + 1)
          then 1 <<< k
          else BotPlayer.pickLoop bm des n ((1 <<< k) <<< 1)
            (((List.range k).filter (fun j => bm.testBit j)).length + 1) := by
        simp only [BotPlayer.pickLoop]
        rw [if_pos (bne_iff_ne.mpr hland)]
      rw [hstep]
      have hc := cnt_succ_true hbit
      by_cases hdes : des = ((List.range k).filter (fun j => bm.testBit j)).length + 1
      · rw [if_pos (beq_iff_eq.mpr hdes)]
        exact ⟨k, by omega, hbit, rfl⟩
      · rw [if_neg (fun hcon => hdes (beq_iff_eq.mp hcon))]
        obtain ⟨j, hj9, hjb, hres⟩ := ih (k + 1) (by omega) (by omega) hle
        refine ⟨j, hj9, hjb, ?_⟩
        rw [← hres, shiftLeft_one_succ, hc]
    · have hland0 : (1 <<< k) &&& bm = 0 := by
        by_contra hcon
        exact hbit (land_single_ne_zero.mp hcon)
      have hstep : BotPlayer.pickLoop bm des (n + 1) (1 <<< k)
          (((List.range k).filter (fun j => bm.testBit j)).length) =
          if (des == ((List.range k).filter (fun j => bm.testBit j)).length)
          then 1 <<< k
          else BotPlayer.pickLoop bm des n ((1 <<< k) <<< 1)
            (((List.range k).filter (fun j => bm.testBit j)).length) := by
        simp only [BotPlayer.pickLoop]
        rw [if_neg (fun hcon => (bne_iff_ne.mp hcon) hland0)]
      rw [hstep]
      rw [Bool.not_eq_true] at hbit
      have hc := cnt_succ_false hbit
      rw [if_neg (fun hcon => absurd (beq_iff_eq.mp hcon) (by omega))]
      obtain ⟨j, hj9, hjb, hres⟩ := ih (k + 1) (by omega) (by omega) hle
      refine ⟨j, hj9, hjb, ?_⟩
      rw [← hres, shiftLeft_one_succ, hc]

theorem popcount_eq_cnt9 {bm : Nat} (hbits : ∀ j, bm.testBit j = true → j < 9) :
    popcount bm = ((List.range 9).filter (fun j => bm.testBit j)).length := by
  unfold popcount
  have haux : ∀ m, 9 ≤ m → m ≤ 16 →
      ((List.range m).filter (fun j => bm.testBit j)).length =
        ((List.range 9).filter (fun j => bm.testBit j)).length := by
    intro m
    induction m with
    | zero => omega
    | succ m ihm =>
      intro h9 h16
      rcases Nat.lt_or_ge 9 (m + 1) with hgt | hge
      ·
        have hmb : bm.testBit m = false := by
          rcases hb : bm.testBit m with - | -
          · rfl
          · exact absurd (hbits m hb) (by omega)
        rw [cnt_succ_false hmb, ihm (by omega) (by omega)]
      · rw [Nat.le_antisymm h9 hge]
  exact haux 16 (by norm_num) le_rfl

theorem single_bit_of_popcount_le_one {bm : Nat}
    (hbits : ∀ j, bm.testBit j = true → j < 9) {i : Nat}
    (hi : bm.testBit i = true) (hpc : popcount bm ≤ 1) : bm = 1 <<< i := by
  refine Nat.eq_of_testBit_eq (fun k => ?_)
  rw [tb_one_shiftLeft]
  rcases eq_or_ne i k with rfl | hik
  · simp [hi]
  · rw [decide_eq_false hik]
    rcases hk : bm.testBit k with - | -
    · rfl
    · exfalso
      have hi16 : i ∈ (List.range 16).filter (fun j => bm.testBit j) := by
        rw [List.mem_filter, List.mem_range]
        exact ⟨by have := hbits i hi; omega, by simpa using hi⟩
      have hk16 : k ∈ (List.range 16).filter (fun j => bm.testBit j) := by
        rw [List.mem_filter, List.mem_range]
        exact ⟨by have := hbits k hk; omega, by simpa using hk⟩
      have hnd : ((List.range 16).filter (fun j => bm.testBit j)).Nodup :=
        (List.nodup_range 16).filter _
      have h2 : ([i, k] : List Nat).Nodup := by simp [hik]
      have hsub : ([i, k] : List Nat) ⊆ (List.range 16).filter (fun j => bm.testBit j) := by
        intro x hx
        simp only [List.mem_cons, List.not_mem_nil, or_false, List.mem_singleton] at hx
        rcases hx with rfl | rfl
        · exact hi16
        · exact hk16
      have hlen := List.Subperm.length_le (List.subperm_of_subset h2 hsub)
      simp only [List.length_cons, List.length_singleton] at hlen
      rw [popcount] at hpc
      omega

end TicTacToe

namespace TicTacToe

/-- Whatever the random draw, `choose_move` returns a single-cell move from
the tied-best set, provided the draw respects the source's distribution
range `[1, move_count - 1]` (only consulted when two or more moves tie). -/
theorem choose_move_picks_best (b : Board) (des : Nat)
    (hne : bitsOf b.get_legal_moves ≠ [])
    (hdes : 2 ≤ popcount (BotPlayer.best_move b) →
      1 ≤ des ∧ des ≤ popcount (BotPlayer.best_move b) - 1) :
    ∃ i, i < 9 ∧ (BotPlayer.best_move b).testBit i = true ∧
      BotPlayer.choose_move b des = 1 <<< i := by
  by_cases hpc : popcount (BotPlayer.best_move b) ≤ 1
  · obtain ⟨j, hj, hsc⟩ := best_score_attained b hne
    have hbit : (BotPlayer.best_move b).testBit j = true :=
      (best_move_testBit b j).mpr ⟨hj, hsc⟩
    have hj9 : j < 9 := (mem_bitsOf.mp hj).1
    have hsingle := single_bit_of_popcount_le_one
      (fun k hk => best_move_bits_lt b hk) hbit hpc
    refine ⟨j, hj9, hbit, ?_⟩
    simp only [BotPlayer.choose_move]
    rw [if_pos hpc]
    exact hsingle
  · have h2 : 2 ≤ popcount (BotPlayer.best_move b) := by omega
    obtain ⟨h1des, h2des⟩ := hdes h2
    have hcnt := popcount_eq_cnt9 (fun k hk => best_move_bits_lt b hk)
    have hpick := @pickLoop_mem (BotPlayer.best_move b) des 9 0
      (by omega)
      (by simp [List.range_zero]; omega)
      (by omega)
    rw [Nat.shiftLeft_zero] at hpick
    obtain ⟨j, hj9, hjb, hres⟩ := hpick
    refine ⟨j, hj9, hjb, ?_⟩
    simp only [BotPlayer.choose_move]
    rw [if_neg hpc]
    rw [← hres]
    rfl

end TicTacToe

namespace TicTacToe

/-! ### The concrete value of the empty board -/

set_option maxRecDepth 100000 in
set_option maxHeartbeats 4000000 in
theorem abOrd_empty_eval :
    abOrdF [4, 0, 8, 2, 6, 1, 5, 3, 7] 9 ⟨0, 0, true⟩ (-1) 1 0 = 0 := by
  decide

theorem vm_empty : vm ⟨0, 0, true⟩ = 0 := by
  have hord : ∀ i, i < 9 → i ∈ [4, 0, 8, 2, 6, 1, 5, 3, 7] := by decide
  have hclean : Clean ⟨0, 0, true⟩ := by
    constructor <;> intro h <;> exact absurd h (by decide)
  have hip : Board.check_status ⟨0, 0, true⟩ = .IN_PROGRESS := by decide
  have hb := abOrd_bracket hord 9 ⟨0, 0, true⟩ (-1) 1 0
    (emptyCount_le_nine _) hclean (by norm_num)
  rw [if_pos hip, abOrd_empty_eval] at hb
  have hr := vm_range ⟨0, 0, true⟩
  omega

/-! ### The bot never reaches a losing position -/

theorem botReach_invariant : ∀ b, BotReach b →
    Clean b ∧ (b.cross_to_move = true → b.check_status = .IN_PROGRESS → 0 ≤ vm b) ∧
    (b.cross_to_move = false → b.check_status = .IN_PROGRESS → vm b ≤ 0) := by
  intro b hb
  induction hb with
  | empty =>
    refine ⟨?_, ?_, ?_⟩
    · constructor <;> intro h <;> exact absurd h (by decide)
    · rintro - -
      rw [vm_empty]
    · rintro hfalse -
      simp at hfalse
  | @bot b2 i hreach ht hip hi9 hbest ih =>
    obtain ⟨hclean, hbot, -⟩ := ih
    have hvmb : 0 ≤ vm b2 := hbot ht hip
    have hvc := ((best_move_testBit_vm hip i).mp hbest).2
    refine ⟨clean_make_move hip _, ?_, ?_⟩
    · rintro hct -
      rw [make_move_cross_to_move, ht] at hct
      simp at hct
    · rintro - -
      omega
  | @opp b2 i hreach ht hip hi9 hleg ih =>
    obtain ⟨hclean, -, hopp⟩ := ih
    have hvmb := hopp ht hip
    have hmem := mem_bitsOf.mpr ⟨hi9, hleg⟩
    have hge : -vm (b2.make_move (1 <<< i)) ≤ vm b2 := by
      rw [vm_recur hip]
      exact le_foldl_max_of_mem (List.mem_map_of_mem _ hmem) _
    refine ⟨clean_make_move hip _, ?_, ?_⟩
    · rintro - -
      omega
    · rintro hcf -
      rw [make_move_cross_to_move, ht] at hcf
      simp at hcf

end TicTacToe

namespace TicTacToe

/-! ### Equivalence of `check_status` with the specification wording -/

theorem bool_eq_of_iff {a b : Bool} (h : a = true ↔ b = true) : a = b := by
  cases a <;> cases b <;> simp_all

theorem pat_testBit_iff {p : Nat} {cells : List Nat} (hp : p < 512)
    (hchar : ∀ i, i < 9 → (p.testBit i = decide (i ∈ cells)))
    (hcells : ∀ i ∈ cells, i < 9) :
    ∀ i, p.testBit i = true ↔ i ∈ cells := by
  intro i
  rcases Nat.lt_or_ge i 9 with h9 | h9
  · rw [hchar i h9]
    simp
  · have hf : p.testBit i = false :=
      Nat.testBit_eq_false_of_lt (lt_of_lt_of_le (show p < 2 ^ 9 by omega)
        (Nat.pow_le_pow_right (by norm_num) h9))
    rw [hf]
    constructor
    · simp
    · intro hmem
      exact absurd (hcells i hmem) (by omega)

theorem patterns_rel : List.Forall₂
    (fun p cells => (∀ i, p.testBit i = true ↔ i ∈ cells) ∧ (∀ i ∈ cells, i < 9))
    winning_patterns spec_patterns := by
  unfold winning_patterns spec_patterns
  refine List.Forall₂.cons ⟨pat_testBit_iff (by norm_num) (by decide) (by decide),
    by decide⟩ ?_
  refine List.Forall₂.cons ⟨pat_testBit_iff (by norm_num) (by decide) (by decide),
    by decide⟩ ?_
  refine List.Forall₂.cons ⟨pat_testBit_iff (by norm_num) (by decide) (by decide),
    by decide⟩ ?_
  refine List.Forall₂.cons ⟨pat_testBit_iff (by norm_num) (by decide) (by decide),
    by decide⟩ ?_
  refine List.Forall₂.cons ⟨pat_testBit_iff (by norm_num) (by decide) (by decide),
    by decide⟩ ?_
  refine List.Forall₂.cons ⟨pat_testBit_iff (by norm_num) (by decide) (by decide),
    by decide⟩ ?_
  refine List.Forall₂.cons ⟨pat_testBit_iff (by norm_num) (by decide) (by decide),
    by decide⟩ ?_
  refine List.Forall₂.cons ⟨pat_testBit_iff (by norm_num) (by decide) (by decide),
    by decide⟩ ?_
  exact List.Forall₂.nil

theorem owns_eq {c p : Nat} {cells : List Nat}
    (h : ∀ i, p.testBit i = true ↔ i ∈ cells) :
    (c &&& p == p) = ownsAll c cells := by
  refine bool_eq_of_iff ?_
  rw [beq_iff_eq, land_eq_self_iff, ownsAll, List.all_eq_true]
  constructor
  · intro hh i hi
    simpa using hh i ((h i).mpr hi)
  · intro hh i hpi
    simpa using hh i ((h i).mp hpi)

theorem completable_eq {c o p : Nat} {cells : List Nat}
    (h : ∀ i, p.testBit i = true ↔ i ∈ cells)
    (hcells : ∀ i ∈ cells, i < 9) :
    (((c ||| (o ^^^ 65535)) &&& p) == p) = completableBy c o cells := by
  refine bool_eq_of_iff ?_
  rw [beq_iff_eq, land_eq_self_iff, completableBy, List.all_eq_true]
  constructor
  · intro hh i hi
    have hi16 : i < 16 := lt_of_lt_of_le (hcells i hi) (by norm_num)
    have := hh i ((h i).mpr hi)
    rw [Nat.testBit_lor, Nat.testBit_xor, tb_65535] at this
    simp only [decide_eq_true hi16] at this
    cases hc : c.testBit i <;> cases ho : o.testBit i <;>
      rw [hc, ho] at this <;> simp_all
  · intro hh i hpi
    have hi := (h i).mp hpi
    have hi16 : i < 16 := lt_of_lt_of_le (hcells i hi) (by norm_num)
    have := hh i hi
    rw [Nat.testBit_lor, Nat.testBit_xor, tb_65535]
    simp only [decide_eq_true hi16]
    cases hc : c.testBit i <;> cases ho : o.testBit i <;>
      rw [hc, ho] at this <;> simp_all

theorem winLoop_eq_spec {c o : Bitboard} :
    ∀ {ps : List Bitboard} {qs : List (List Nat)},
      List.Forall₂ (fun p cells => (∀ i, p.testBit i = true ↔ i ∈ cells) ∧
        (∀ i ∈ cells, i < 9)) ps qs →
      winLoop c o ps = spec_winLoop c o qs := by
  intro ps qs hrel
  induction hrel with
  | nil => rfl
  | cons hR hrest ih =>
    obtain ⟨hiff, -⟩ := hR
    simp only [winLoop, spec_winLoop]
    rw [owns_eq (c := c) hiff, owns_eq (c := o) hiff, ih]

theorem winnable_eq_spec {c o : Bitboard} :
    ∀ {ps : List Bitboard} {qs : List (List Nat)},
      List.Forall₂ (fun p cells => (∀ i, p.testBit i = true ↔ i ∈ cells) ∧
        (∀ i ∈ cells, i < 9)) ps qs →
      winnableLoop c o ps =
        qs.any (fun cells => completableBy c o cells || completableBy o c cells) := by
  intro ps qs hrel
  induction hrel with
  | nil => rfl
  | cons hR hrest ih =>
    obtain ⟨hiff, hlt⟩ := hR
    simp only [winnableLoop, List.any_cons]
    rw [completable_eq hiff hlt, completable_eq hiff hlt, ih, Bool.or_assoc]

/-! ### Symmetry of `check_status` under swapping the occupancies -/

theorem exists_testBit_of_ne_zero {p : Nat} (hp : p ≠ 0) :
    ∃ j, p.testBit j = true := by
  by_contra hno
  push_neg at hno
  refine hp (Nat.eq_of_testBit_eq (fun j => ?_))
  rw [Nat.zero_testBit]
  exact Bool.not_eq_true _ ▸ (hno j)

theorem not_both_own {c o p : Nat} (hdisj : c &&& o = 0) (hp : p ≠ 0) :
    ¬(c &&& p = p ∧ o &&& p = p) := by
  rintro ⟨h1, h2⟩
  obtain ⟨j, hj⟩ := exists_testBit_of_ne_zero hp
  have hc := (land_eq_self_iff c p).mp h1 j hj
  have ho := (land_eq_self_iff o p).mp h2 j hj
  have := congrArg (fun x => x.testBit j) hdisj
  simp only [Nat.testBit_land, Nat.zero_testBit, hc, ho] at this
  simp at this

theorem winLoop_swap {c o : Bitboard} (hdisj : c &&& o = 0) :
    ∀ {ps : List Bitboard}, (∀ p ∈ ps, p ≠ 0) →
      winLoop o c ps = (winLoop c o ps).map swapStatus := by
  intro ps
  induction ps with
  | nil =>
    rintro -
    rfl
  | cons p rest ih =>
    intro hne
    have hp0 := hne p (List.mem_cons_self _ _)
    by_cases hcp : c &&& p = p
    · have hop : ¬(o &&& p = p) := fun hop => not_both_own hdisj hp0 ⟨hcp, hop⟩
      simp only [winLoop]
      rw [if_pos (beq_iff_eq.mpr hcp),
        if_neg (fun hcon => hop (beq_iff_eq.mp hcon)),
        if_pos (beq_iff_eq.mpr hcp)]
      rfl
    · by_cases hop : o &&& p = p
      · simp only [winLoop]
        rw [if_pos (beq_iff_eq.mpr hop),
          if_neg (fun hcon => hcp (beq_iff_eq.mp hcon)),
          if_pos (beq_iff_eq.mpr hop)]
        rfl
      · simp only [winLoop]
        rw [if_neg (fun hcon => hop (beq_iff_eq.mp hcon)),
          if_neg (fun hcon => hcp (beq_iff_eq.mp hcon)),
          if_neg (fun hcon => hcp (beq_iff_eq.mp hcon)),
          if_neg (fun hcon => hop (beq_iff_eq.mp hcon))]
        exact ih (fun q hq => hne q (List.mem_cons_of_mem _ hq))

theorem winnableLoop_swap (c o : Bitboard) :
    ∀ ps : List Bitboard, winnableLoop o c ps = winnableLoop c o ps := by
  intro ps
  induction ps with
  | nil => rfl
  | cons p rest ih =>
    simp only [winnableLoop]
    rw [ih]
    cases hA : (((c ||| (o ^^^ 65535)) &&& p) == p) <;>
      cases hB : (((o ||| (c ^^^ 65535)) &&& p) == p) <;> simp [hA, hB]

theorem check_status_swap {c o : Bitboard} {t : Bool} (hdisj : c &&& o = 0) :
    Board.check_status ⟨o, c, t⟩ = swapStatus (Board.check_status ⟨c, o, t⟩) := by
  unfold Board.check_status
  rw [show (Board.mk o c t).cross = o from rfl, show (Board.mk o c t).circle = c from rfl,
    show (Board.mk c o t).cross = c from rfl, show (Board.mk c o t).circle = o from rfl]
  rw [winLoop_swap hdisj patterns_ne_zero, winnableLoop_swap c o]
  rcases winLoop c o winning_patterns with - | s
  · simp only [Option.map_none]
    by_cases hn : winnableLoop c o winning_patterns = true <;> simp [hn, swapStatus]
  · rfl

end TicTacToe

namespace TicTacToe

/-! ### Remaining helper lemmas for the claims -/

theorem legal_land_cross (b : Board) : b.get_legal_moves &&& b.cross = 0 := by
  refine Nat.eq_of_testBit_eq (fun j => ?_)
  rw [Nat.testBit_land, legal_testBit, Nat.zero_testBit]
  cases hc : b.cross.testBit j
  · simp
  · simp [hc]

theorem legal_land_circle (b : Board) : b.get_legal_moves &&& b.circle = 0 := by
  refine Nat.eq_of_testBit_eq (fun j => ?_)
  rw [Nat.testBit_land, legal_testBit, Nat.zero_testBit]
  cases hc : b.circle.testBit j
  · simp
  · simp [hc]

theorem reachable_core : ∀ b, Reachable b →
    b.cross &&& b.circle = 0 ∧ b.cross < 512 ∧ b.circle < 512 := by
  intro b hb
  induction hb with
  | empty => exact ⟨by decide, by decide, by decide⟩
  | @step b2 i hreach hi9 hleg ih =>
    obtain ⟨hdisj, hc, ho⟩ := ih
    have hi := legal_testBit b2 i
    rw [hleg] at hi
    replace hi := hi.symm
    rw [Bool.and_eq_true, Bool.not_eq_true', Bool.or_eq_false_iff] at hi
    obtain ⟨-, hic, hio⟩ := hi
    have hdisj2 : ∀ j, b2.cross.testBit j = true → b2.circle.testBit j = false := by
      intro j hj
      have := congrArg (fun x => x.testBit j) hdisj
      simp only [Nat.testBit_land, Nat.zero_testBit, hj] at this
      simpa using this
    have h29 : (512 : Nat) = 2 ^ 9 := by norm_num
    cases ht : b2.cross_to_move
    · have hm : b2.make_move (1 <<< i) = ⟨b2.cross, b2.circle ^^^ 1 <<< i, true⟩ := by
        simp [Board.make_move, ht]
      rw [hm]
      refine ⟨?_, hc, ?_⟩
      · refine Nat.eq_of_testBit_eq (fun j => ?_)
        rw [Nat.testBit_land, Nat.testBit_xor, tb_one_shiftLeft, Nat.zero_testBit]
        rcases eq_or_ne i j with rfl | hij
        · simp [hic]
        · simp only [decide_eq_false hij, Bool.xor_false]
          cases hcj : b2.cross.testBit j
          · simp
          · simp [hdisj2 j hcj]
      · rw [h29]
        refine Nat.lt_pow_two_of_testBit _ (fun j hj => ?_)
        rw [Nat.testBit_xor, tb_one_shiftLeft]
        have hoj : b2.circle.testBit j = false :=
          Nat.testBit_eq_false_of_lt (lt_of_lt_of_le ho
            (h29 ▸ Nat.pow_le_pow_right (by norm_num) hj))
        rw [hoj, decide_eq_false (show ¬i = j by omega)]
        rfl
    · have hm : b2.make_move (1 <<< i) = ⟨b2.cross ^^^ 1 <<< i, b2.circle, false⟩ := by
        simp [Board.make_move, ht]
      rw [hm]
      refine ⟨?_, ?_, ho⟩
      · refine Nat.eq_of_testBit_eq (fun j => ?_)
        rw [Nat.testBit_land, Nat.testBit_xor, tb_one_shiftLeft, Nat.zero_testBit]
        rcases eq_or_ne i j with rfl | hij
        · simp [hio]
        · simp only [decide_eq_false hij, Bool.xor_false]
          cases hcj : b2.cross.testBit j
          · simp
          · simp [hdisj2 j hcj]
      · rw [h29]
        refine Nat.lt_pow_two_of_testBit _ (fun j hj => ?_)
        rw [Nat.testBit_xor, tb_one_shiftLeft]
        have hcj : b2.cross.testBit j = false :=
          Nat.testBit_eq_false_of_lt (lt_of_lt_of_le hc
            (h29 ▸ Nat.pow_le_pow_right (by norm_num) hj))
        rw [hcj, decide_eq_false (show ¬i = j by omega)]
        rfl

theorem subPos_clean {b0 b1 : Board} (h0 : Clean b0) (hs : SubPos b0 b1) :
    Clean b1 := by
  induction hs with
  | refl => exact h0
  | step hsub hip hi9 hleg ih => exact clean_make_move hip _

/-! ### The claims -/

/-- C1: the terminal evaluation of the alpha-beta search follows exactly the
source rule: DRAW scores 0; CIRCLE_WON scores -1 with cross to move and
`10 - depth` with circle to move; CROSS_WON scores `10 - depth` with cross
to move and -1 with circle to move; in each case the result is the same for
every fuel (in particular fuel 0), so the search returns immediately
without recursing. -/
theorem alphabeta_terminal_rule (b : Board) (α β : Int) (d : Nat) :
    (b.check_status = .DRAW → ∀ f, alphabetaF f b α β d = 0) ∧
    (b.check_status = .CIRCLE_WON → b.cross_to_move = true →
      ∀ f, alphabetaF f b α β d = -1) ∧
    (b.check_status = .CIRCLE_WON → b.cross_to_move = false →
      ∀ f, alphabetaF f b α β d = 10 - (d : Int)) ∧
    (b.check_status = .CROSS_WON → b.cross_to_move = true →
      ∀ f, alphabetaF f b α β d = 10 - (d : Int)) ∧
    (b.check_status = .CROSS_WON → b.cross_to_move = false →
      ∀ f, alphabetaF f b α β d = -1) := by
  refine ⟨fun h f => alphabetaF_draw h,
    fun h ht f => ?_, fun h ht f => ?_, fun h ht f => ?_, fun h ht f => ?_⟩
  · rw [alphabetaF_circle_won h, ht]
    simp
  · rw [alphabetaF_circle_won h, ht]
    simp
  · rw [alphabetaF_cross_won h, ht]
    simp
  · rw [alphabetaF_cross_won h, ht]
    simp

theorem alphabeta_terminal_rule_witness :
    alphabetaF 9 ⟨115, 396, true⟩ 5 7 3 = 0 ∧
    alphabetaF 9 ⟨0, 448, true⟩ 5 7 3 = -1 ∧
    alphabetaF 9 ⟨0, 448, false⟩ 5 7 3 = 10 - ((3 : Nat) : Int) ∧
    alphabetaF 9 ⟨448, 0, true⟩ 5 7 3 = 10 - ((3 : Nat) : Int) ∧
    alphabetaF 9 ⟨448, 0, false⟩ 5 7 3 = -1 :=
  ⟨(alphabeta_terminal_rule _ 5 7 3).1 (by decide) 9,
   (alphabeta_terminal_rule _ 5 7 3).2.1 (by decide) rfl 9,
   (alphabeta_terminal_rule _ 5 7 3).2.2.1 (by decide) rfl 9,
   (alphabeta_terminal_rule _ 5 7 3).2.2.2.1 (by decide) rfl 9,
   (alphabeta_terminal_rule _ 5 7 3).2.2.2.2 (by decide) rfl 9⟩

/-- C2: on every in-progress board with at least one legal move, whatever
the random draw (which the source takes from `distr(1, move_count - 1)`
when two or more moves tie), `choose_move` returns a single-cell legal move
whose search score equals the maximum search score over all legal moves. -/
theorem choose_move_achieves_max (b : Board) (des : Nat)
    (hip : b.check_status = .IN_PROGRESS)
    (hne0 : b.get_legal_moves ≠ 0)
    (hdes : 2 ≤ popcount (BotPlayer.best_move b) →
      1 ≤ des ∧ des ≤ popcount (BotPlayer.best_move b) - 1) :
    ∃ i, i < 9 ∧ BotPlayer.choose_move b des = 1 <<< i ∧
      b.get_legal_moves.testBit i = true ∧
      -alphabeta (b.make_move (1 <<< i)) (-100) 100 0 = BotPlayer.best_score b ∧
      ∀ j, j < 9 → b.get_legal_moves.testBit j = true →
        -alphabeta (b.make_move (1 <<< j)) (-100) 100 0 ≤ BotPlayer.best_score b := by
  have hne : bitsOf b.get_legal_moves ≠ [] := bitsOf_ne_nil_of_in_progress hip
  obtain ⟨i, hi9, hbit, hcm⟩ := choose_move_picks_best b des hne hdes
  obtain ⟨hmem, hsc⟩ := (best_move_testBit b i).mp hbit
  exact ⟨i, hi9, hcm, (mem_bitsOf.mp hmem).2, hsc,
    fun j hj9 hjleg => sc_le_best_score b (mem_bitsOf.mpr ⟨hj9, hjleg⟩)⟩

theorem choose_move_achieves_max_witness :
    BotPlayer.choose_move ⟨11, 164, true⟩ 1 = 1 <<< 6 ∧
    (Board.mk 11 164 true).get_legal_moves.testBit 6 = true ∧
    -alphabeta ((Board.mk 11 164 true).make_move (1 <<< 6)) (-100) 100 0 =
      BotPlayer.best_score ⟨11, 164, true⟩ := by
  obtain ⟨i, hi9, hcm, hleg, hsc, -⟩ :=
    choose_move_achieves_max ⟨11, 164, true⟩ 1 (by decide) (by decide) (by decide)
  have hcm64 : BotPlayer.choose_move ⟨11, 164, true⟩ 1 = 64 := by decide
  rw [hcm64] at hcm
  have h6 : i = 6 := by
    interval_cases i <;> first | rfl | (norm_num [Nat.shiftLeft_eq] at hcm)
  subst h6
  exact ⟨hcm64.trans hcm, hleg, hsc⟩

/-- C3 (code bug): on the board cross = {0,1,3}, circle = {2,5,7} with cross
to move, the tied-best move set is {6, 8} (`best_move = 320`,
`move_count = 2`), so the source draws `des_bit` from
`distr(1, move_count - 1) = distr(1, 1)`, i.e. always 1, and `choose_move`
always returns cell 6 (mask 64): the tied best move 8 (mask 256) is
returned with probability zero, contradicting the claimed uniform choice
among all tied moves. -/
theorem choose_move_never_returns_last_tied :
    BotPlayer.best_move ⟨11, 164, true⟩ = 320 ∧
    Nat.testBit 320 6 = true ∧ Nat.testBit 320 8 = true ∧ popcount 320 = 2 ∧
    BotPlayer.choose_move ⟨11, 164, true⟩ 1 = 64 ∧
    BotPlayer.choose_move ⟨11, 164, true⟩ 1 ≠ 256 := by
  refine ⟨by decide, by decide, by decide, by decide, by decide, by decide⟩

/-- C4: the maximum move score computed by `choose_move` on the empty board
is exactly 0, and along every game in which the bot (cross, moving first)
always plays moves from its tied-best set while the opponent replies with
arbitrary legal moves, every in-progress position with the bot to move has
a nonnegative best score. -/
theorem bot_draw_and_never_loses :
    BotPlayer.best_score ⟨0, 0, true⟩ = 0 ∧
    ∀ b, BotReach b → b.cross_to_move = true → b.check_status = .IN_PROGRESS →
      0 ≤ BotPlayer.best_score b := by
  constructor
  · rw [best_score_eq_vm (by decide), vm_empty]
  · intro b hb ht hip
    rw [best_score_eq_vm hip]
    exact (botReach_invariant b hb).2.1 ht hip

theorem bot_draw_and_never_loses_witness :
    BotPlayer.best_score ⟨0, 0, true⟩ = 0 ∧
    0 ≤ BotPlayer.best_score ⟨0, 0, true⟩ :=
  ⟨bot_draw_and_never_loses.1,
   bot_draw_and_never_loses.2 ⟨0, 0, true⟩ BotReach.empty rfl (by decide)⟩

/-- C5: applying `make_move` and then `unmake_move` with the same
single-cell move restores the exact prior board, all three fields
included. -/
theorem make_unmake_roundtrip (b : Board) (m : Bitboard)
    (hm : ∃ i, i < 9 ∧ m = 1 <<< i) :
    (b.make_move m).unmake_move m = b := by
  obtain ⟨i, -, rfl⟩ := hm
  rcases b with ⟨c, o, t⟩
  cases t <;>
    simp [Board.make_move, Board.unmake_move, Nat.xor_assoc, Nat.xor_self]

theorem make_unmake_roundtrip_witness :
    ((Board.mk 5 2 true).make_move (1 <<< 3)).unmake_move (1 <<< 3) =
      Board.mk 5 2 true :=
  make_unmake_roundtrip _ _ ⟨3, by norm_num, rfl⟩

/-- C6: `check_status` implements exactly the specified algorithm: scan the
8 winning line patterns returning CROSS_WON / CIRCLE_WON for a fully owned
pattern (cross checked first per pattern), else IN_PROGRESS when some
pattern is still completable by one side (all its cells owned by that side
or empty) and DRAW otherwise. -/
theorem check_status_eq_spec : ∀ b : Board, b.check_status = b.check_status_spec := by
  intro b
  unfold Board.check_status Board.check_status_spec
  rw [winLoop_eq_spec patterns_rel, winnable_eq_spec patterns_rel]

/-- C7: every board reachable from the empty board by legal single-cell
moves has disjoint occupancies contained in the 9 cells, `make_move` and
`unmake_move` flip the side to move, and the legal-move set is disjoint
from both occupancies. -/
theorem reachable_board_invariants (b : Board) (hb : Reachable b) :
    (b.cross &&& b.circle = 0 ∧ b.cross < 512 ∧ b.circle < 512) ∧
    (∀ m : Bitboard, (b.make_move m).cross_to_move = !b.cross_to_move ∧
      (b.unmake_move m).cross_to_move = !b.cross_to_move) ∧
    b.get_legal_moves &&& b.cross = 0 ∧ b.get_legal_moves &&& b.circle = 0 :=
  ⟨reachable_core b hb,
   fun m => ⟨make_move_cross_to_move b m, unmake_move_cross_to_move b m⟩,
   legal_land_cross b, legal_land_circle b⟩

theorem reachable_board_invariants_witness :
    ((Board.mk 0 0 true).cross &&& (Board.mk 0 0 true).circle = 0 ∧
      (Board.mk 0 0 true).cross < 512 ∧ (Board.mk 0 0 true).circle < 512) ∧
    ((Board.mk 0 0 true).make_move 16).cross_to_move =
      !(Board.mk 0 0 true).cross_to_move ∧
    (Board.mk 0 0 true).get_legal_moves &&& (Board.mk 0 0 true).cross = 0 :=
  ⟨(reachable_board_invariants _ Reachable.empty).1,
   ((reachable_board_invariants _ Reachable.empty).2.1 16).1,
   (reachable_board_invariants _ Reachable.empty).2.2.1⟩

/-- C8: at every position visited by the search below a move played from an
in-progress board, a decided status means the side to move is the loser, so
the terminal evaluation takes the -1 branch (never the `10 - depth` one);
with the window shapes arising in the bot's search every such call returns
a value in {-1, 0, 1}, and each per-move score of the bot lies in
{-1, 0, 1}. -/
theorem search_positions_loser_to_move (b : Board) (i : Nat)
    (hip : b.check_status = .IN_PROGRESS) (hi9 : i < 9)
    (hleg : b.get_legal_moves.testBit i = true) :
    (∀ b2, SubPos (b.make_move (1 <<< i)) b2 →
      (b2.check_status = .CROSS_WON → b2.cross_to_move = false) ∧
      (b2.check_status = .CIRCLE_WON → b2.cross_to_move = true) ∧
      (∀ (α β : Int) (d : Nat),
        b2.check_status = .CROSS_WON ∨ b2.check_status = .CIRCLE_WON →
        alphabeta b2 α β d = -1) ∧
      (∀ (α β : Int) (d : Nat), (α = -100 ∨ (-1 ≤ α ∧ α ≤ 1)) →
        (β = 100 ∨ (-1 ≤ β ∧ β ≤ 1)) → α < β →
        alphabeta b2 α β d = -1 ∨ alphabeta b2 α β d = 0 ∨
          alphabeta b2 α β d = 1)) ∧
    (-alphabeta (b.make_move (1 <<< i)) (-100) 100 0 = -1 ∨
     -alphabeta (b.make_move (1 <<< i)) (-100) 100 0 = 0 ∨
     -alphabeta (b.make_move (1 <<< i)) (-100) 100 0 = 1) := by
  have hclean0 : Clean (b.make_move (1 <<< i)) := clean_make_move hip _
  have hmain : ∀ b2, SubPos (b.make_move (1 <<< i)) b2 →
      (b2.check_status = .CROSS_WON → b2.cross_to_move = false) ∧
      (b2.check_status = .CIRCLE_WON → b2.cross_to_move = true) ∧
      (∀ (α β : Int) (d : Nat),
        b2.check_status = .CROSS_WON ∨ b2.check_status = .CIRCLE_WON →
        alphabeta b2 α β d = -1) ∧
      (∀ (α β : Int) (d : Nat), (α = -100 ∨ (-1 ≤ α ∧ α ≤ 1)) →
        (β = 100 ∨ (-1 ≤ β ∧ β ≤ 1)) → α < β →
        alphabeta b2 α β d = -1 ∨ alphabeta b2 α β d = 0 ∨
          alphabeta b2 α β d = 1) := by
    intro b2 hsp
    have hclean2 : Clean b2 := subPos_clean hclean0 hsp
    refine ⟨hclean2.1, hclean2.2, ?_, ?_⟩
    · intro α β d hwin
      rcases hwin with hw | hw
      · rw [alphabeta, alphabetaF_cross_won hw, hclean2.1 hw]
        simp
      · rw [alphabeta, alphabetaF_circle_won hw, hclean2.2 hw]
        simp
    · intro α β d hα hβ hαβ
      have hbr := alphabeta_bracket (d := d) hclean2 hαβ
      have hr := vm_range b2
      by_cases hst2 : b2.check_status = .IN_PROGRESS
      · rw [if_pos hst2] at hbr
        rcases hα with rfl | ⟨ha1, ha2⟩ <;> rcases hβ with rfl | ⟨hb1, hb2⟩ <;>
          rw [hbr] <;> omega
      · rw [if_neg hst2] at hbr
        rw [hbr]
        omega
  refine ⟨hmain, ?_⟩
  have h1 := (hmain (b.make_move (1 <<< i)) (SubPos.refl _)).2.2.2
    (-100) 100 0 (Or.inl rfl) (Or.inl rfl) (by norm_num)
  omega

theorem search_positions_loser_to_move_witness :
    alphabeta ((Board.mk 11 52 true).make_move (1 <<< 6)) (-100) 100 0 = -1 ∨
    alphabeta ((Board.mk 11 52 true).make_move (1 <<< 6)) (-100) 100 0 = 0 ∨
    alphabeta ((Board.mk 11 52 true).make_move (1 <<< 6)) (-100) 100 0 = 1 :=
  ((search_positions_loser_to_move ⟨11, 52, true⟩ 6 (by decide) (by decide)
      (by decide)).1 _ (SubPos.refl _)).2.2.2 (-100) 100 0
    (Or.inl rfl) (Or.inl rfl) (by norm_num)

/-- C9 (counterexample): on the board whose two occupancies are the same
full top row, exchanging the occupancies gives back the same board, yet the
status is CROSS_WON and not the swap of itself, so `check_status` is not
symmetric on arbitrary boards. -/
theorem check_status_swap_counterexample :
    Board.check_status ⟨448, 448, true⟩ ≠
      swapStatus (Board.check_status ⟨448, 448, true⟩) := by
  decide

/-- C9 (amended): on every board with disjoint occupancies, evaluating
`check_status` with cross and circle exchanged yields the same status with
the two win outcomes exchanged. -/
theorem check_status_swap_of_disjoint (c o : Bitboard) (t : Bool)
    (hdisj : c &&& o = 0) :
    Board.check_status ⟨o, c, t⟩ = swapStatus (Board.check_status ⟨c, o, t⟩) :=
  check_status_swap hdisj

theorem check_status_swap_of_disjoint_witness :
    Board.check_status ⟨3, 448, true⟩ =
      swapStatus (Board.check_status ⟨448, 3, true⟩) :=
  check_status_swap_of_disjoint 448 3 true (by decide)

/-- C10: the search terminates on every board: a board has at most nine
empty cells, each recursive call is on a board with strictly fewer empty
cells, and any fuel at least the number of empty cells (in particular the
recursion depth bound 9) gives the same result as `alphabeta`. -/
theorem alphabeta_terminates :
    (∀ b : Board, emptyCount b ≤ 9) ∧
    (∀ (b : Board) (i : Nat), i < 9 → b.get_legal_moves.testBit i = true →
      emptyCount (b.make_move (1 <<< i)) < emptyCount b) ∧
    (∀ (b : Board) (α β : Int) (d : Nat) (fuel : Nat), emptyCount b ≤ fuel →
      alphabetaF fuel b α β d = alphabeta b α β d) := by
  refine ⟨emptyCount_le_nine, ?_, ?_⟩
  · intro b i hi9 hleg
    have h1 := emptyCount_make_move b hi9 hleg
    have h2 := emptyCount_pos b hi9 hleg
    omega
  · intro b α β d fuel hf
    rw [alphabeta]
    exact alphabetaF_of_le_fuel hf (emptyCount_le_nine b)

theorem alphabeta_terminates_witness :
    emptyCount ⟨0, 0, true⟩ ≤ 9 ∧
    emptyCount ((Board.mk 11 52 true).make_move (1 <<< 6)) <
      emptyCount ⟨11, 52, true⟩ ∧
    alphabetaF 12 ⟨11, 52, true⟩ (-100) 100 0 =
      alphabeta ⟨11, 52, true⟩ (-100) 100 0 :=
  ⟨alphabeta_terminates.1 _,
   alphabeta_terminates.2.1 ⟨11, 52, true⟩ 6 (by decide) (by decide),
   alphabeta_terminates.2.2 ⟨11, 52, true⟩ (-100) 100 0 12 (by decide)⟩

end TicTacToe
